import Mathlib

/-!
# sha256s: manifest codec and check pipeline

A shallow embedding of the Go sources `hashsum.go`, `main_check.go` and `walker.go`.

* Go strings and byte slices are lists of bytes (`Fin 256`); a Go string need
  not be valid UTF-8, and the embedding keeps that.
* Go `int` values that index or slice a string are `Int`; an index or slice
  expression that Go would answer with a run-time panic evaluates to `none`.
* Library routines the sources call (`encoding/hex`, `strings.IndexAny`,
  `strings.Replacer`, the rune decoding of `for range` over a string,
  `strings.Builder.WriteRune`, and `Split`, `Clean`, `Join`, `Abs` of
  `path/filepath` on Unix) are embedded by their Go semantics.
* A loop or recursion of the sources that has no bound of its own takes a bound on
  its iterations; `none` means the bound was reached.
-/

namespace Sha256s

/-! ## Bytes and strings -/

/-- A Go byte. -/
abbrev Byte := Fin 256

/-- A Go string: a sequence of bytes, valid UTF-8 or not. -/
abbrev GoString := List Byte

/-- An ASCII literal as a Go string. -/
def ascii (s : String) : GoString := s.toList.map (fun c => Fin.ofNat c.toNat)

/-- The NUL byte. -/
def chNul : Byte := 0x00
/-- The byte of the newline character. -/
def chNewline : Byte := 0x0a
/-- The byte of the space character. -/
def chSpace : Byte := 0x20
/-- The byte of the asterisk. -/
def chStar : Byte := 0x2a
/-- The byte of the dash, the stdin placeholder. -/
def chDash : Byte := 0x2d
/-- The byte of the forward slash. -/
def chSlash : Byte := 0x2f
/-- The byte of the backslash. -/
def chBackslash : Byte := 0x5c
/-- The byte of the letter n. -/
def chLowerN : Byte := 0x6e

/-- Go index expression `s[i]`; `none` is the index-out-of-range panic. -/
def index (s : GoString) (i : Int) : Option Byte :=
  if 0 ≤ i then s[i.toNat]? else none

/-- Go slice expression `s[lo:hi]`; `none` is the slice-bounds panic. -/
def slice (s : GoString) (lo hi : Int) : Option GoString :=
  if 0 ≤ lo ∧ lo ≤ hi ∧ hi ≤ (s.length : Int) then
    some ((s.take hi.toNat).drop lo.toNat)
  else none

/-- Go slice expression `s[lo:]`. -/
def sliceFrom (s : GoString) (lo : Int) : Option GoString :=
  slice s lo s.length

/-- Go slice expression `s[:hi]`. -/
def sliceTo (s : GoString) (hi : Int) : Option GoString :=
  slice s 0 hi

/-- Go `strings.HasPrefix`. -/
def HasPrefix (s pfx : GoString) : Bool :=
  decide (pfx.length ≤ s.length) && decide (s.take pfx.length = pfx)

/-! ## encoding/hex -/

/-- The table `hextable` of `encoding/hex`. -/
def hextable : GoString := ascii "0123456789abcdef"

/-- Go `hex.EncodeToString`: two lowercase digits per byte, high nibble first. -/
def hexEncodeToString : List Byte → GoString
  | [] => []
  | v :: rest =>
    hextable.getD (v.val / 16) 0 :: hextable.getD (v.val % 16) 0 :: hexEncodeToString rest

/-- Go `fromHexChar`: the value of a hexadecimal digit of either case. -/
def fromHexChar (c : Byte) : Option Nat :=
  if 0x30 ≤ c.val ∧ c.val ≤ 0x39 then some (c.val - 0x30)
  else if 0x61 ≤ c.val ∧ c.val ≤ 0x66 then some (c.val - 0x61 + 10)
  else if 0x41 ≤ c.val ∧ c.val ≤ 0x46 then some (c.val - 0x41 + 10)
  else none

/-- The errors of `hex.Decode`. -/
inductive HexError where
  | invalidByte (b : Byte)
  | errLength
deriving DecidableEq, Repr

/-- Go `hex.DecodeString`: the bytes decoded before the first error, and the error.
Pairs of digits are decoded left to right; a bad digit stops the decoding; an odd
trailing digit is `errLength`. -/
def hexDecodeString : GoString → List Byte × Option HexError
  | [] => ([], none)
  | [c] =>
    match fromHexChar c with
    | none => ([], some (.invalidByte c))
    | some _ => ([], some .errLength)
  | p :: q :: rest =>
    match fromHexChar p with
    | none => ([], some (.invalidByte p))
    | some a =>
      match fromHexChar q with
      | none => ([], some (.invalidByte q))
      | some b =>
        ((Fin.ofNat (a * 16 + b) : Byte) :: (hexDecodeString rest).1, (hexDecodeString rest).2)

/-! ## UTF-8 as seen by `for range` and `WriteRune` -/

/-- The replacement rune U+FFFD. -/
def RuneError : Nat := 0xFFFD

/-- A UTF-8 continuation byte (`locb <= b && b <= hicb`). -/
def isCont (b : Byte) : Bool := decide (0x80 ≤ b.val) && decide (b.val ≤ 0xBF)

/-- The rune and width that a `for range` loop over a string yields at the head of
a non-empty `s` (bytes below 0x80 directly, the rest through the run-time
`decoderune`). A malformed or truncated sequence yields `RuneError` with width 1.
The masks and shifts of the Go code are written as `%` and `*`. -/
def decodeRune (s : GoString) : Nat × Nat :=
  match s with
  | [] => (RuneError, 1)
  | b0 :: t =>
    if b0.val < 0x80 then (b0.val, 1)
    else if 0xC0 ≤ b0.val ∧ b0.val < 0xE0 then
      match t with
      | b1 :: _ =>
        if isCont b1 then
          let r := (b0.val % 32) * 64 + b1.val % 64
          if 0x7F < r then (r, 2) else (RuneError, 1)
        else (RuneError, 1)
      | _ => (RuneError, 1)
    else if 0xE0 ≤ b0.val ∧ b0.val < 0xF0 then
      match t with
      | b1 :: b2 :: _ =>
        if isCont b1 && isCont b2 then
          let r := (b0.val % 16) * 4096 + (b1.val % 64) * 64 + b2.val % 64
          if 0x7FF < r ∧ ¬ (0xD800 ≤ r ∧ r ≤ 0xDFFF) then (r, 3) else (RuneError, 1)
        else (RuneError, 1)
      | _ => (RuneError, 1)
    else if 0xF0 ≤ b0.val ∧ b0.val < 0xF8 then
      match t with
      | b1 :: b2 :: b3 :: _ =>
        if isCont b1 && isCont b2 && isCont b3 then
          let r := (b0.val % 8) * 262144 + (b1.val % 64) * 4096 + (b2.val % 64) * 64 + b3.val % 64
          if 0xFFFF < r ∧ r ≤ 0x10FFFF then (r, 4) else (RuneError, 1)
        else (RuneError, 1)
      | _ => (RuneError, 1)
    else (RuneError, 1)

/-- Go `utf8.AppendRune`, which `strings.Builder.WriteRune` writes: the UTF-8
encoding of `r`; surrogates and values above U+10FFFF are written as U+FFFD. -/
def encodeRune (r : Nat) : GoString :=
  if r ≤ 0x7F then [Fin.ofNat r]
  else if r ≤ 0x7FF then [Fin.ofNat (0xC0 + r / 64), Fin.ofNat (0x80 + r % 64)]
  else if 0x10FFFF < r ∨ (0xD800 ≤ r ∧ r ≤ 0xDFFF) then [0xEF, 0xBF, 0xBD]
  else if r ≤ 0xFFFF then
    [Fin.ofNat (0xE0 + r / 4096), Fin.ofNat (0x80 + r / 64 % 64), Fin.ofNat (0x80 + r % 64)]
  else
    [Fin.ofNat (0xF0 + r / 262144), Fin.ofNat (0x80 + r / 4096 % 64),
     Fin.ofNat (0x80 + r / 64 % 64), Fin.ofNat (0x80 + r % 64)]

/-! ## File-name escaping (`hashsum.go`) -/

/-- The loop of `unescapeName`. The string is walked byte by byte; `skip` counts the
bytes of the current rune that remain to be stepped over, so a rune is handled at
its first byte, as `for _, ch := range name` does. `sb` is the `strings.Builder`. -/
def unescapeLoop : GoString → Nat → Bool → GoString → GoString
  | [], _, escaping, sb => if escaping then sb ++ [chBackslash] else sb
  | _ :: rest, skip + 1, escaping, sb => unescapeLoop rest skip escaping sb
  | b :: rest, 0, escaping, sb =>
    let ch := (decodeRune (b :: rest)).1
    let w := (decodeRune (b :: rest)).2
    if escaping then
      if ch = 0x5c then unescapeLoop rest (w - 1) false (sb ++ [chBackslash])
      else if ch = 0x6e then unescapeLoop rest (w - 1) false (sb ++ [chNewline])
      else unescapeLoop rest (w - 1) false (sb ++ encodeRune ch)
    else if ch = 0x5c then unescapeLoop rest (w - 1) true sb
    else unescapeLoop rest (w - 1) false (sb ++ encodeRune ch)

/-- The function `unescapeName`. -/
def unescapeName (name : GoString) : GoString :=
  unescapeLoop name 0 false []

/-- Go `strings.IndexAny` for a set of ASCII bytes: the index of the first byte of
`s` that is in `chars`, from position `i` on, or -1. -/
def indexAnyFrom (chars : GoString) : GoString → Nat → Int
  | [], _ => -1
  | b :: rest, i => if b ∈ chars then (i : Int) else indexAnyFrom chars rest (i + 1)

/-- Go `strings.IndexAny`. -/
def IndexAny (s chars : GoString) : Int := indexAnyFrom chars s 0

/-- Go `strings.IndexByte`. -/
def IndexByte (s : GoString) (c : Byte) : Int := indexAnyFrom [c] s 0

/-- The replacement table of `strings.NewReplacer("\\", "\\\\", "\n", "\\n")`: all old
strings are single bytes, so Go builds a byte-to-string replacer. -/
def fileNameEscapeReplacer (b : Byte) : Option GoString :=
  if b = chBackslash then some [chBackslash, chBackslash]
  else if b = chNewline then some [chBackslash, chLowerN]
  else none

/-- The method `Replace` of a byte-to-string replacer: every byte that has a
replacement is replaced by it, every other byte is copied. -/
def Replace (r : Byte → Option GoString) : GoString → GoString
  | [] => []
  | b :: rest =>
    (match r b with
     | some v => v
     | none => [b]) ++ Replace r rest

/-- The function `escapeName`: `(result, changed)`. -/
def escapeName (name : GoString) : GoString × Bool :=
  if IndexAny name [chBackslash, chNewline] < 0 then (name, false)
  else (Replace fileNameEscapeReplacer name, true)

/-! ## The reader's line parsers (`hashsum.go`) -/

/-- The struct `HashSumReader`. `Width` is the digest length in bytes (the program
sets it to `sha256.Size`); it is a natural number here, a negative width is not
embedded. -/
structure HashSumReader where
  Name : GoString
  Width : Nat
  Tag : Bool
  Zero : Bool
  CrLf : Bool

/-- The named results `(sum, file, ok)` of a line parser. -/
structure ParseResult where
  sum : List Byte
  file : GoString
  ok : Bool
deriving DecidableEq, Repr

/-- The bare `return` of a parser before any result is assigned. -/
def ParseResult.zero : ParseResult := ⟨[], [], false⟩

/-- The method `parseGnuSum`; `none` is a run-time panic of an index or slice. -/
def HashSumReader.parseGnuSum (r : HashSumReader) (line0 : GoString) : Option ParseResult :=
  let hexWidth : Int := (r.Width : Int) * 2
  let escaped := HasPrefix line0 [chSlash]
  (if escaped then sliceFrom line0 1 else some line0).bind fun line =>
  if (line.length : Int) ≤ hexWidth + 2 then some ParseResult.zero
  else
    (index line hexWidth).bind fun c0 =>
    if c0 ≠ chSpace then some ParseResult.zero
    else
      (index line (hexWidth + 1)).bind fun c1 =>
      if c1 ≠ chSpace ∧ c1 ≠ chStar then some ParseResult.zero
      else
        (sliceTo line hexWidth).bind fun hexSum =>
        (sliceFrom line (hexWidth + 2)).bind fun file0 =>
        let file := if escaped then unescapeName file0 else file0
        let dec := hexDecodeString hexSum
        match dec.2 with
        | some _ => some ⟨dec.1, file, false⟩
        | none => some ⟨dec.1, file, true⟩

/-- The method `parseBsdSum`; `none` is a run-time panic of an index or slice. The
three comparisons are joined by `&&`, and the second compares with `"( "`, as in
the source. -/
def HashSumReader.parseBsdSum (r : HashSumReader) (line0 : GoString) : Option ParseResult :=
  let hexWidth : Int := (r.Width : Int) * 2
  let escaped := HasPrefix line0 [chSlash]
  (if escaped then sliceFrom line0 1 else some line0).bind fun line =>
  let n : Int := line.length
  let k : Int := r.Name.length
  if n ≤ hexWidth + k + 6 then some ParseResult.zero
  else
    (sliceTo line k).bind fun p1 =>
    (if p1 ≠ r.Name then
      (slice line k (k + 2)).bind fun p2 =>
      if p2 ≠ ascii "( " then
        (slice line (n - hexWidth - 4) (n - hexWidth)).bind fun p3 =>
        some (decide (p3 ≠ ascii ") = "))
      else some false
    else some false).bind fun reject =>
    if reject then some ParseResult.zero
    else
      (sliceFrom line (n - hexWidth)).bind fun hexSum =>
      (slice line (k + 2) (n - hexWidth - 4)).bind fun file0 =>
      let file := if escaped then unescapeName file0 else file0
      let dec := hexDecodeString hexSum
      match dec.2 with
      | some _ => some ⟨dec.1, file, false⟩
      | none => some ⟨dec.1, file, true⟩

/-! ## The writer (`hashsum.go`) -/

/-- The struct `HashSumWriter`. -/
structure HashSumWriter where
  Name : GoString
  Tag : Bool
  Zero : Bool
  Binary : Bool

/-- The method `Write`: the bytes it formats into `out`. -/
def HashSumWriter.Write (w : HashSumWriter) (sum : List Byte) (name0 : GoString) : GoString :=
  let sep : GoString := if w.Zero then [chNul] else [chNewline]
  let esc : GoString × Bool := if !w.Zero then escapeName name0 else (name0, false)
  let name := esc.1
  let pfx : GoString := if esc.2 then [chBackslash] else []
  if w.Tag then
    pfx ++ w.Name ++ ascii " (" ++ name ++ ascii ") = " ++ hexEncodeToString sum ++ sep
  else
    let flag : Byte := if w.Binary then chStar else chSpace
    pfx ++ hexEncodeToString sum ++ [chSpace] ++ [flag] ++ name ++ sep

/-! ## Reading a manifest (`hashsum.go`) -/

/-- An error of the operating system, as far as the program looks at it:
`notExist` is what `os.IsNotExist` answers for it. -/
structure IOError where
  notExist : Bool
  text : GoString
deriving DecidableEq, Repr

/-- The struct `BadLineError`. -/
structure BadLineError where
  Path : GoString
  Line : Int
  Name : GoString
deriving DecidableEq, Repr

/-- The error values that `Read` hands to its callback. `noValidLines path name` is
the value of `fmt.Errorf("%s: no properly formatted %s checksum lines found", path, name)`. -/
inductive ReadError where
  | io (e : IOError)
  | badLine (e : BadLineError)
  | noValidLines (path name : GoString)
deriving DecidableEq, Repr

/-- One invocation `readFn(sum, name, err)` of the callback; a nil slice is `[]`. -/
structure ReadCall where
  sum : List Byte
  name : GoString
  err : Option ReadError
deriving DecidableEq, Repr

/-- What the scanner delivers for an opened manifest: the tokens `scn.Text()` in
order, and the value of `scn.Err()` after the last one. -/
structure ScannedFile where
  lines : List GoString
  scanErr : Option IOError
deriving DecidableEq, Repr

/-- The local variables of the scanning loop of `Read`, with the callback
invocations made so far. -/
structure ReadState where
  validLineCount : Nat
  lineNo : Int
  calls : List ReadCall
deriving DecidableEq, Repr

/-- The parser `Read` selects: `parseBsdSum` when `Tag` is set, else `parseGnuSum`. -/
def HashSumReader.lineParser (r : HashSumReader) (line : GoString) : Option ParseResult :=
  if r.Tag then r.parseBsdSum line else r.parseGnuSum line

/-- One iteration of the scanning loop of `Read`. -/
def HashSumReader.readStep (r : HashSumReader) (path : GoString) (st : ReadState)
    (text : GoString) : Option ReadState :=
  let lineNo := st.lineNo + 1
  (r.lineParser text).bind fun res =>
  let ok := if res.ok && decide (res.file = [chDash]) && decide (path = [chDash]) then false
            else res.ok
  if ok then
    some ⟨st.validLineCount + 1, lineNo, st.calls ++ [⟨res.sum, res.file, none⟩]⟩
  else
    some ⟨st.validLineCount, lineNo,
      st.calls ++ [⟨[], path, some (.badLine ⟨path, lineNo, r.Name⟩)⟩]⟩

/-- The scanning loop of `Read` over the tokens of the scanner. -/
def HashSumReader.readLoop (r : HashSumReader) (path : GoString) :
    List GoString → ReadState → Option ReadState
  | [], st => some st
  | text :: rest, st => (r.readStep path st text).bind (r.readLoop path rest)

/-- The method `Read`: the callback invocations it makes, in order, given what
`OpenFile` and the scanner deliver for `path`; `none` is a run-time panic. -/
def HashSumReader.Read (r : HashSumReader) (path : GoString)
    (opened : Except IOError ScannedFile) : Option (List ReadCall) :=
  match opened with
  | .error e => some [⟨[], path, some (.io e)⟩]
  | .ok f =>
    (r.readLoop path f.lines ⟨0, 0, []⟩).bind fun st =>
    match f.scanErr with
    | some e => some (st.calls ++ [⟨[], path, some (.io e)⟩])
    | none =>
      if st.validLineCount = 0 then
        some (st.calls ++ [⟨[], path, some (.noValidLines path r.Name)⟩])
      else some st.calls

/-! ## The check pipeline (`main_check.go`) -/

/-- The fields of `Options` that decide the results of a check run. Left out are
`Jobs` (the number of workers), `Status` (it silences the log and closes the
standard output before the run) and `NativePath` (it only sets a local of
`checkWorker` that is never read). -/
structure Options where
  Tag : Bool
  Zero : Bool
  CrLf : Bool
  IgnoreMissing : Bool
  Quiet : Bool
  Strict : Bool
  Warn : Bool
  Paths : List GoString

/-- The struct `checksumLine`. -/
structure checksumLine where
  ArgI : Nat
  Name : GoString
  Sum : List Byte
deriving DecidableEq, Repr

/-- The struct `checkResult`. -/
structure checkResult where
  ArgI : Nat
  Name : GoString
  Stat : GoString
deriving DecidableEq, Repr

/-- The status of a skipped missing file: the empty string. -/
def statSkipped : GoString := []
/-- The status of a verified file. -/
def statOK : GoString := ascii "OK"
/-- The status of a digest mismatch. -/
def statFailed : GoString := ascii "FAILED"
/-- The status of a file that could not be opened or read. -/
def statUnreadable : GoString := ascii "FAILED open or read"

/-- A line handed to the logger. -/
inductive LogMsg where
  | readError (e : ReadError)
  | fileError (e : IOError)
  | noFileVerified (path : GoString)
  | warnBadLines (c : Int)
  | warnBadFiles (c : Int)
  | warnMismatch (c : Int)
deriving DecidableEq, Repr

/-- The constant `sha256.Size`. -/
def sha256Size : Nat := 32

/-- What `readSumWorker` has produced: the entries sent on `lineCh`, the two
counters it increments, and its log lines. -/
structure ReadSumState where
  lineCh : List checksumLine
  badLinesCount : Int
  errorsCount : Int
  log : List LogMsg
deriving DecidableEq, Repr

/-- The callback that `readSumWorker` passes to `Read`, for argument index `i`. -/
def readSumCallback (opt : Options) (i : Nat) (st : ReadSumState) (c : ReadCall) :
    ReadSumState :=
  match c.err with
  | none => { st with lineCh := st.lineCh ++ [⟨i, c.name, c.sum⟩] }
  | some (.badLine e) =>
    { st with
      log := if opt.Warn then st.log ++ [.readError (.badLine e)] else st.log
      badLinesCount := st.badLinesCount + 1 }
  | some e =>
    { st with
      log := st.log ++ [.readError e]
      errorsCount := st.errorsCount + 1 }

/-- The reader that `readSumWorker` builds. -/
def checkReader (opt : Options) : HashSumReader :=
  ⟨ascii "SHA256", sha256Size, opt.Tag, opt.Zero, opt.CrLf⟩

/-- The loop of `readSumWorker` over the path arguments from index `i` on;
`opened` lists what `OpenFile` and the scanner deliver for each of them. -/
def readSumLoop (opt : Options) :
    List GoString → List (Except IOError ScannedFile) → Nat → ReadSumState → Option ReadSumState
  | path :: paths, o :: os, i, st =>
    ((checkReader opt).Read path o).bind fun calls =>
    readSumLoop opt paths os (i + 1) (calls.foldl (readSumCallback opt i) st)
  | _, _, _, st => some st

/-- The function `readSumWorker`. -/
def readSumWorker (opt : Options) (opened : List (Except IOError ScannedFile)) :
    Option ReadSumState :=
  readSumLoop opt opt.Paths opened 0 ⟨[], 0, 0, []⟩

/-- What a `checkWorker` has produced: the results sent on `checkCh`, the counter
it increments, and its log lines. -/
structure CheckWorkerState where
  checkCh : List checkResult
  badFilesCount : Int
  log : List LogMsg
deriving DecidableEq, Repr

/-- The body of the loop of `checkWorker` for one entry, given what `fileHash`
returned for `line.Name`. The local `name` of the source is never read after it is
set and has no counterpart here. -/
def checkWorkerStep (opt : Options) (st : CheckWorkerState) (line : checksumLine)
    (hashed : Except IOError (List Byte)) : CheckWorkerState :=
  match hashed with
  | .error e =>
    if opt.IgnoreMissing && e.notExist then
      { st with checkCh := st.checkCh ++ [⟨line.ArgI, line.Name, statSkipped⟩] }
    else
      { checkCh := st.checkCh ++ [⟨line.ArgI, line.Name, statUnreadable⟩]
        badFilesCount := st.badFilesCount + 1
        log := st.log ++ [.fileError e] }
  | .ok sum =>
    if sum = line.Sum then
      { st with checkCh := st.checkCh ++ [⟨line.ArgI, line.Name, statOK⟩] }
    else
      { st with checkCh := st.checkCh ++ [⟨line.ArgI, line.Name, statFailed⟩] }

/-- The function `checkWorker` over the entries it receives, `fileHash` giving the
outcome of hashing a named file. -/
def checkWorker (opt : Options) (fileHash : GoString → Except IOError (List Byte))
    (lines : List checksumLine) : CheckWorkerState :=
  lines.foldl (fun st line => checkWorkerStep opt st line (fileHash line.Name)) ⟨[], 0, []⟩

/-- The local state of the aggregation loop of `checkMain`: the two maps used as
sets, the mismatch counter and the texts printed. -/
structure AggState where
  noFileVerifiedSet : Finset Nat
  fileVerifiedSet : Finset Nat
  mismatchCount : Int
  printed : List GoString
deriving DecidableEq

/-- The text of `fmt.Printf("%s: %s\n", name, stat)`. -/
def statusLine (name stat : GoString) : GoString :=
  name ++ ascii ": " ++ stat ++ [chNewline]

/-- One iteration of `for result := range checkCh` in `checkMain`. -/
def aggStep (opt : Options) (st : AggState) (result : checkResult) : AggState :=
  if result.Stat = [] then
    if result.ArgI ∉ st.fileVerifiedSet then
      { st with noFileVerifiedSet := insert result.ArgI st.noFileVerifiedSet }
    else st
  else
    let st1 : AggState :=
      if result.ArgI ∈ st.noFileVerifiedSet then
        { st with
          noFileVerifiedSet := st.noFileVerifiedSet.erase result.ArgI
          fileVerifiedSet := insert result.ArgI st.fileVerifiedSet }
      else st
    let name : GoString :=
      if IndexByte result.Name chNewline ≥ 0 then chBackslash :: (escapeName result.Name).1
      else result.Name
    if result.Stat = statOK then
      if !opt.Quiet then { st1 with printed := st1.printed ++ [statusLine name result.Stat] }
      else st1
    else if result.Stat = statFailed then
      { st1 with
        mismatchCount := st1.mismatchCount + 1
        printed := st1.printed ++ [statusLine name result.Stat] }
    else { st1 with printed := st1.printed ++ [statusLine name result.Stat] }

/-- The aggregation loop of `checkMain` over the results in their arrival order. -/
def aggregate (opt : Options) (results : List checkResult) : AggState :=
  results.foldl (aggStep opt) ⟨∅, ∅, 0, []⟩

/-- The end of a check run. -/
structure CheckOutcome where
  printed : List GoString
  log : List LogMsg
  noFileVerified : Finset Nat
  warnings : List LogMsg
  errorsCount : Int
  exitCode : Nat
deriving DecidableEq

/-- The part of `checkMain` after the aggregation loop: every index left in
`noFileVerifiedSet` is counted as an error and reported, the warnings are logged,
and the process exits with 1 when the final condition holds (0 otherwise). -/
def checkFinish (opt : Options) (agg : AggState) (log : List LogMsg)
    (badLinesCount badFilesCount errorsCount : Int) : CheckOutcome :=
  let errorsCount := errorsCount + agg.noFileVerifiedSet.card
  { printed := agg.printed
    log := log
    noFileVerified := agg.noFileVerifiedSet
    warnings :=
      (if badLinesCount > 0 then [LogMsg.warnBadLines badLinesCount] else []) ++
      (if badFilesCount > 0 then [LogMsg.warnBadFiles badFilesCount] else []) ++
      (if agg.mismatchCount > 0 then [LogMsg.warnMismatch agg.mismatchCount] else [])
    errorsCount := errorsCount
    exitCode :=
      if (opt.Strict && decide (badLinesCount ≠ 0)) || decide (badFilesCount ≠ 0) ||
          decide (errorsCount ≠ 0) || decide (agg.mismatchCount ≠ 0) then 1
      else 0 }

/-- The function `checkMain` with the results arriving in the order of the
entries (the order of a run with one job): the reader, the worker, the
aggregation loop and the final part. -/
def checkMain (opt : Options) (opened : List (Except IOError ScannedFile))
    (fileHash : GoString → Except IOError (List Byte)) : Option CheckOutcome :=
  (readSumWorker opt opened).bind fun rs =>
  let ws := checkWorker opt fileHash rs.lineCh
  let agg := aggregate opt ws.checkCh
  some (checkFinish opt agg (rs.log ++ ws.log) rs.badLinesCount ws.badFilesCount rs.errorsCount)

/-! ## Closed forms used in the proofs -/

/-- The escaped form of a file name as the specification words it: every backslash
becomes two backslashes, every newline becomes a backslash followed by the letter n,
every other byte stays. -/
def escapedForm : GoString → GoString
  | [] => []
  | b :: rest =>
    if b = chBackslash then chBackslash :: chBackslash :: escapedForm rest
    else if b = chNewline then chBackslash :: chLowerN :: escapedForm rest
    else b :: escapedForm rest

/-- The body of a tagged line as the specification's grammar has it: the algorithm
name, `" ("`, a file name, `") = "`, then exactly `2W` hexadecimal characters. -/
def taggedBodyConforms (algo : GoString) (W : Nat) (s : GoString) : Bool :=
  decide (algo.length + 6 + 2 * W ≤ s.length) &&
  decide (s.take (algo.length + 2) = algo ++ ascii " (") &&
  decide ((s.drop (s.length - 2 * W - 4)).take 4 = ascii ") = ") &&
  (s.drop (s.length - 2 * W)).all (fun c => decide (c ∈ ascii "0123456789abcdefABCDEF"))

/-- The tagged line grammar of the specification: a conforming body, bare or
behind one leading slash. -/
def taggedLineConforms (algo : GoString) (W : Nat) (s : GoString) : Bool :=
  taggedBodyConforms algo W s ||
  (match s with
   | [] => false
   | c :: t => decide (c = chSlash) && taggedBodyConforms algo W t)

/-- A digest of 32 bytes used in the examples. -/
def sampleDigest : List Byte := List.replicate 32 0xab

/-- The writer of the hash mode in its default configuration (plain format, LF). -/
def plainWriter : HashSumWriter := ⟨ascii "SHA256", false, false, false⟩

/-- The writer of the hash mode with the tagged format. -/
def taggedWriter : HashSumWriter := ⟨ascii "SHA256", true, false, false⟩

/-- The reader of the check mode in its default configuration (plain format, LF). -/
def plainReader : HashSumReader := ⟨ascii "SHA256", 32, false, false, false⟩

/-- The reader of the check mode with the tagged format. -/
def taggedReader : HashSumReader := ⟨ascii "SHA256", 32, true, false, false⟩

/-- The options of a check run with `--ignore-missing` and two manifest arguments. -/
def checkOptions : Options :=
  { Tag := false, Zero := false, CrLf := false, IgnoreMissing := true, Quiet := false,
    Strict := false, Warn := false, Paths := [ascii "m0", ascii "m1"] }

/-- A hexadecimal character, of either case. -/
def isHexDigit (c : Byte) : Bool := decide (c ∈ ascii "0123456789abcdefABCDEF")

/-- The part of `parseGnuSum` after the escape marker is removed, with every index
and slice expression evaluated on a line that is long enough. -/
def gnuBody (W : Nat) (escaped : Bool) (s : GoString) : ParseResult :=
  if s.length ≤ 2 * W + 2 then ParseResult.zero
  else if s[2 * W]? ≠ some chSpace then ParseResult.zero
  else if s[2 * W + 1]? ≠ some chSpace ∧ s[2 * W + 1]? ≠ some chStar then ParseResult.zero
  else
    ⟨(hexDecodeString (s.take (2 * W))).1,
     if escaped then unescapeName (s.drop (2 * W + 2)) else s.drop (2 * W + 2),
     (hexDecodeString (s.take (2 * W))).2.isNone⟩

/-- The part of `parseBsdSum` after the escape marker is removed, with every slice
expression evaluated on a line that is long enough. -/
def bsdBody (algo : GoString) (W : Nat) (escaped : Bool) (s : GoString) : ParseResult :=
  if s.length ≤ 2 * W + algo.length + 6 then ParseResult.zero
  else if s.take algo.length ≠ algo ∧
      (s.take (algo.length + 2)).drop algo.length ≠ ascii "( " ∧
      (s.take (s.length - 2 * W)).drop (s.length - 2 * W - 4) ≠ ascii ") = " then
    ParseResult.zero
  else
    ⟨(hexDecodeString (s.drop (s.length - 2 * W))).1,
     if escaped then unescapeName ((s.take (s.length - 2 * W - 4)).drop (algo.length + 2))
     else (s.take (s.length - 2 * W - 4)).drop (algo.length + 2),
     (hexDecodeString (s.drop (s.length - 2 * W))).2.isNone⟩

/-- What the selected line parser returns, in closed form. -/
def HashSumReader.parsed (r : HashSumReader) (text : GoString) : ParseResult :=
  if r.Tag then
    bsdBody r.Name r.Width (HasPrefix text [chSlash])
      (if HasPrefix text [chSlash] then text.drop 1 else text)
  else
    gnuBody r.Width (HasPrefix text [chSlash])
      (if HasPrefix text [chSlash] then text.drop 1 else text)

/-- The entry of a valid line, as the specification words validity: the configured
parser accepts the line, and it is not the case that both the manifest path and
the parsed file name are the stdin placeholder. `none` for any other line. -/
def HashSumReader.validEntry (r : HashSumReader) (path text : GoString) :
    Option (List Byte × GoString) :=
  match r.lineParser text with
  | some res =>
    if res.ok = true ∧ ¬ (path = [chDash] ∧ res.file = [chDash]) then some (res.sum, res.file)
    else none
  | none => none

/-- The callback invocation the specification expects for the line with the 1-based
number `lineNo`: the entry of a valid line, a `BadLineError` for any other. -/
def HashSumReader.expectedCall (r : HashSumReader) (path : GoString) (lineNo : Int)
    (text : GoString) : ReadCall :=
  match r.validEntry path text with
  | some e => ⟨e.1, e.2, none⟩
  | none => ⟨[], path, some (.badLine ⟨path, lineNo, r.Name⟩)⟩

/-- The expected invocations for the lines that follow line number `n`, in order. -/
def HashSumReader.expectedCallsFrom (r : HashSumReader) (path : GoString) :
    Int → List GoString → List ReadCall
  | _, [] => []
  | n, text :: rest => r.expectedCall path (n + 1) text :: r.expectedCallsFrom path (n + 1) rest

/-- The file-level invocation for a manifest without a valid line. -/
def HashSumReader.noValidCall (r : HashSumReader) (path : GoString) : ReadCall :=
  ⟨[], path, some (.noValidLines path r.Name)⟩

/-- The log lines of `readSumWorker` for the malformed lines that follow line
number `n`: one per malformed line when `Warn` is set, none otherwise. -/
def badLineLog (opt : Options) (r : HashSumReader) (path : GoString) :
    Int → List GoString → List LogMsg
  | _, [] => []
  | n, text :: rest =>
    (if opt.Warn = true ∧ r.validEntry path text = none then
      [LogMsg.readError (.badLine ⟨path, n + 1, r.Name⟩)]
     else []) ++ badLineLog opt r path (n + 1) rest

/-- The name a status line shows: a name with a newline is escaped and put behind
a backslash. -/
def displayName (name : GoString) : GoString :=
  if IndexByte name chNewline ≥ 0 then chBackslash :: (escapeName name).1 else name

/-- A manifest line that no parser accepts. -/
def junkLine : GoString := ascii "not a checksum line"

/-- A well-formed plain line: the sample digest and the file name `f`. -/
def sampleLine : GoString := hexEncodeToString sampleDigest ++ ascii "  f"

/-- A file system in which every file hashes to 32 zero bytes. -/
def zeroHash : GoString → Except IOError (List Byte) := fun _ => .ok (List.replicate 32 0)

/-- A Unicode scalar value: a code point up to U+10FFFF that is no surrogate. -/
def validRune (r : Nat) : Bool :=
  decide (r < 0xD800) || (decide (0xE000 ≤ r) && decide (r ≤ 0x10FFFF))

/-- The UTF-8 text of a sequence of runes. -/
def encodeRunes : List Nat → GoString
  | [] => []
  | r :: rs => encodeRune r ++ encodeRunes rs

/-- Where the aggregation loop stands for one argument: no skipped result seen yet
(`untouched`), in the no-file-verified set (`unverified`), or in the file-verified
set (`verified`). -/
inductive ArgPhase where
  | untouched
  | unverified
  | verified
deriving DecidableEq, Repr

/-- The move of the phase of argument `i` on one result. -/
def phaseStep (i : Nat) (ph : ArgPhase) (r : checkResult) : ArgPhase :=
  if r.ArgI = i then
    if r.Stat = [] then
      (match ph with
       | .verified => .verified
       | _ => .unverified)
    else
      (match ph with
       | .unverified => .verified
       | p => p)
  else ph

/-- The phase of argument `i` after the results, in arrival order. -/
def argPhase (i : Nat) (results : List checkResult) : ArgPhase :=
  results.foldl (phaseStep i) .untouched

/-- The sets of the aggregation loop and the phase of argument `i` agree. -/
def phaseInv (i : Nat) (st : AggState) (ph : ArgPhase) : Prop :=
  (i ∈ st.noFileVerifiedSet ↔ ph = .unverified) ∧ (i ∈ st.fileVerifiedSet ↔ ph = .verified)

/-! ## The line parsers over 64-bit integers

The parsers above take `Width` as a natural number and compute with unbounded
integers. Here `Width` is any Go `int` and every `int` operation wraps modulo
`2^64`, as Go defines it for a 64-bit `int`. -/

/-- The largest Go `int` (64 bits): `2^63 - 1`. -/
def maxInt : Int := 9223372036854775807

/-- The value of a signed 64-bit operation whose exact result is `x`: the
representative of `x` modulo `2^64` between `-2^63` and `2^63 - 1`. -/
def wrapInt (x : Int) : Int :=
  (x + 9223372036854775808) % 18446744073709551616 - 9223372036854775808

namespace Machine

/-- The struct `HashSumReader`, with `Width` a Go `int`. -/
structure HashSumReader where
  Name : GoString
  Width : Int
  Tag : Bool
  Zero : Bool
  CrLf : Bool

/-- The method `parseGnuSum` with 64-bit arithmetic; `none` is a run-time panic of
an index or slice expression. -/
def HashSumReader.parseGnuSum (r : HashSumReader) (line0 : GoString) : Option ParseResult :=
  let hexWidth : Int := wrapInt (r.Width * 2)
  let escaped := HasPrefix line0 [chSlash]
  (if escaped then sliceFrom line0 1 else some line0).bind fun line =>
  if (line.length : Int) ≤ wrapInt (hexWidth + 2) then some ParseResult.zero
  else
    (index line hexWidth).bind fun c0 =>
    if c0 ≠ chSpace then some ParseResult.zero
    else
      (index line (wrapInt (hexWidth + 1))).bind fun c1 =>
      if c1 ≠ chSpace ∧ c1 ≠ chStar then some ParseResult.zero
      else
        (sliceTo line hexWidth).bind fun hexSum =>
        (sliceFrom line (wrapInt (hexWidth + 2))).bind fun file0 =>
        let file := if escaped then unescapeName file0 else file0
        let dec := hexDecodeString hexSum
        match dec.2 with
        | some _ => some ⟨dec.1, file, false⟩
        | none => some ⟨dec.1, file, true⟩

/-- The method `parseBsdSum` with 64-bit arithmetic; `none` is a run-time panic of
a slice expression. -/
def HashSumReader.parseBsdSum (r : HashSumReader) (line0 : GoString) : Option ParseResult :=
  let hexWidth : Int := wrapInt (r.Width * 2)
  let escaped := HasPrefix line0 [chSlash]
  (if escaped then sliceFrom line0 1 else some line0).bind fun line =>
  let n : Int := line.length
  let k : Int := r.Name.length
  if n ≤ wrapInt (wrapInt (hexWidth + k) + 6) then some ParseResult.zero
  else
    (sliceTo line k).bind fun p1 =>
    (if p1 ≠ r.Name then
      (slice line k (wrapInt (k + 2))).bind fun p2 =>
      if p2 ≠ ascii "( " then
        (slice line (wrapInt (wrapInt (n - hexWidth) - 4)) (wrapInt (n - hexWidth))).bind fun p3 =>
        some (decide (p3 ≠ ascii ") = "))
      else some false
    else some false).bind fun reject =>
    if reject then some ParseResult.zero
    else
      (sliceFrom line (wrapInt (n - hexWidth))).bind fun hexSum =>
      (slice line (wrapInt (k + 2)) (wrapInt (wrapInt (n - hexWidth) - 4))).bind fun file0 =>
      let file := if escaped then unescapeName file0 else file0
      let dec := hexDecodeString hexSum
      match dec.2 with
      | some _ => some ⟨dec.1, file, false⟩
      | none => some ⟨dec.1, file, true⟩

/-- The reader with the same fields and the width as a natural number. -/
def HashSumReader.unbounded (r : HashSumReader) : Sha256s.HashSumReader :=
  ⟨r.Name, r.Width.toNat, r.Tag, r.Zero, r.CrLf⟩

end Machine

/-- The line without the optional leading slash, as both parsers strip it. -/
def stripMarker (line0 : GoString) : GoString :=
  if HasPrefix line0 [chSlash] then line0.drop 1 else line0

/-! ## Paths (`path/filepath` on Unix) -/

/-- The byte of the dot. -/
def chDot : Byte := 0x2e

/-- Go `filepath.IsAbs` on Unix: the path starts with a slash. -/
def IsAbs (path : GoString) : Bool := HasPrefix path [chSlash]

/-- Go `filepath.Split`: the path is cut right after its last slash; `dir` keeps the
slash, `file` has none. -/
def Split (path : GoString) : GoString × GoString :=
  ((path.reverse.dropWhile (fun b => decide (b ≠ chSlash))).reverse,
   (path.reverse.takeWhile (fun b => decide (b ≠ chSlash))).reverse)

/-- The elements of a path between its slashes, empty ones included. -/
def splitSlash : GoString → List GoString
  | [] => [[]]
  | b :: rest =>
    if b = chSlash then [] :: splitSlash rest
    else
      match splitSlash rest with
      | c :: cs => (b :: c) :: cs
      | [] => [[b]]

/-- Go `strings.Join` with the separator `/`. -/
def joinSlash : List GoString → GoString
  | [] => []
  | [e] => e
  | e :: rest => e ++ chSlash :: joinSlash rest

/-- What the loop of `filepath.Clean` does with one element, `out` being the
elements kept so far: an empty element and `.` are dropped; `..` removes the last
kept element (in a rooted path it is dropped at the root; in an unrooted path it is
kept when nothing but `..` elements precede it); any other element is kept. -/
def cleanStep (rooted : Bool) (out : List GoString) (elem : GoString) : List GoString :=
  if elem = [] then out
  else if elem = [chDot] then out
  else if elem = [chDot, chDot] then
    (if rooted then out.dropLast
     else if out = [] ∨ out.getLast? = some [chDot, chDot] then out ++ [[chDot, chDot]]
     else out.dropLast)
  else out ++ [elem]

/-- Go `filepath.Clean` on Unix. -/
def Clean (path : GoString) : GoString :=
  if path = [] then [chDot]
  else if path.head? = some chSlash then
    chSlash :: joinSlash ((splitSlash path).foldl (cleanStep true) [])
  else if (splitSlash path).foldl (cleanStep false) [] = [] then [chDot]
  else joinSlash ((splitSlash path).foldl (cleanStep false) [])

/-- Go `filepath.Join`: the elements from the first non-empty one on, joined with
slashes and cleaned; the empty string when there is none. -/
def Join : List GoString → GoString
  | [] => []
  | e :: rest => if e ≠ [] then Clean (joinSlash (e :: rest)) else Join rest

/-! ## The directory walker (`walker.go`) -/

/-- The file system as the walker sees it: the working directory (for
`filepath.Abs`), `filepath.EvalSymlinks`, and for a directory the batches of names
that `Readdirnames(128)` returns, followed by its final error (`none` for
`io.EOF`). -/
structure DirStream where
  batches : List (List GoString)
  readErr : Option IOError

/-- The environment of the walker. -/
structure FileSystem where
  getwd : Except IOError GoString
  evalSymlinks : GoString → Except IOError GoString
  openDir : GoString → Except IOError DirStream

/-- The file modes the walker tells apart. -/
inductive FileMode where
  | regular
  | dir
  | other
deriving DecidableEq, Repr

/-- The errors handed to the walk function: an error of the operating system, or
the `PathError` with "symlink loop detected" that the walker builds for a path. -/
inductive WalkError where
  | io (e : IOError)
  | symlinkLoop (path : GoString)
deriving DecidableEq, Repr

/-- What the walker does that can be observed: it calls the walk function, the stat
function, or it opens a directory. -/
inductive WalkEvent where
  | walkFn (name : GoString) (err : Option WalkError)
  | statFn (path : GoString)
  | openDir (path : GoString)
deriving DecidableEq, Repr

/-- Go `filepath.Abs` on Unix. -/
def Abs (fs : FileSystem) (path : GoString) : Except IOError GoString :=
  if IsAbs path then .ok (Clean path)
  else
    match fs.getwd with
    | .error e => .error e
    | .ok wd => .ok (Join [wd, path])

/-- The results `(looping, err)` of `isLooping`, with the paths it handed to
`EvalSymlinks`, in order. -/
structure LoopResult where
  looping : Bool
  err : Option IOError
  resolved : List GoString
deriving DecidableEq, Repr

/-- The loop of `isLooping`, with a bound on the number of iterations; `none` when
the bound is reached. `visited` is the map `visitedSet`. -/
def isLoopingLoop (evalSymlinks : GoString → Except IOError GoString) :
    Nat → GoString → Finset GoString → List GoString → Option LoopResult
  | 0, _, _, _ => none
  | fuel + 1, absPath, visited, resolved =>
    match evalSymlinks absPath with
    | .error e => some ⟨false, some e, resolved ++ [absPath]⟩
    | .ok realPath =>
      if realPath ∈ visited then some ⟨true, none, resolved ++ [absPath]⟩
      else if (Split absPath).2 = [] then some ⟨false, none, resolved ++ [absPath]⟩
      else
        isLoopingLoop evalSymlinks fuel (Clean (Split absPath).1) (insert realPath visited)
          (resolved ++ [absPath])

/-- The function `isLooping`, with a bound on the iterations of its loop. -/
def isLooping (fs : FileSystem) (fuel : Nat) (path : GoString) : Option LoopResult :=
  match Abs fs path with
  | .error e => some ⟨false, some e, []⟩
  | .ok absPath => isLoopingLoop fs.evalSymlinks fuel absPath ∅ []

/-- The events of a sequence of steps, in order; `none` when one of them does not
end. -/
def seqEvents {α : Type} (f : α → Option (List WalkEvent)) : List α → Option (List WalkEvent)
  | [] => some []
  | a :: rest => (f a).bind fun evs => (seqEvents f rest).map fun more => evs ++ more

/-- The body of the inner loop of `findRegularFilesInDir` for one name; `descend`
is the recursive call. -/
def walkName (fs : FileSystem) (statFn : GoString → Except IOError FileMode) (loopFuel : Nat)
    (descend : GoString → Option (List WalkEvent)) (root name : GoString) :
    Option (List WalkEvent) :=
  let path := Join [root, name]
  match isLooping fs loopFuel path with
  | none => none
  | some res =>
    match res.err with
    | some e => some [.walkFn path (some (.io e))]
    | none =>
      if res.looping then some [.walkFn path (some (.symlinkLoop path))]
      else
        match statFn path with
        | .error e => some [.statFn path, .walkFn path (some (.io e))]
        | .ok .regular => some [.statFn path, .walkFn path none]
        | .ok .dir => (descend path).map fun evs => .statFn path :: evs
        | .ok .other => some [.statFn path]

/-- The function `findRegularFilesInDir`, with a bound on the depth of the
recursion and one on the loop of `isLooping`; `none` when a bound is reached. -/
def findRegularFilesInDir (fs : FileSystem) (statFn : GoString → Except IOError FileMode)
    (loopFuel : Nat) : Nat → GoString → Option (List WalkEvent)
  | 0, _ => none
  | fuel + 1, root =>
    match fs.openDir root with
    | .error e => some [.openDir root, .walkFn root (some (.io e))]
    | .ok ds =>
      (seqEvents
        (seqEvents (walkName fs statFn loopFuel (findRegularFilesInDir fs statFn loopFuel fuel) root))
        ds.batches).map fun evs =>
        .openDir root :: evs ++
          (match ds.readErr with
           | some e => [.walkFn root (some (.io e))]
           | none => [])

/-- The path with the elements `cs` below the root: `/` for none, else a slash in
front of each element. -/
def rootedPath (cs : List GoString) : GoString := chSlash :: joinSlash cs

/-- The lists of elements of a path and of its ancestors, the longest first, the
root (no element) last; the argument is the list of elements in reverse order. -/
def chainRev : List GoString → List (List GoString)
  | [] => [[]]
  | c :: rest => (c :: rest).reverse :: chainRev rest

/-- The prefixes of an absolute path: the path itself, each ancestor, and the
root. -/
def pathPrefixes (absPath : GoString) : List GoString :=
  (chainRev ((splitSlash absPath).filter (fun e => decide (e ≠ []))).reverse).map rootedPath

/-- An element that `Clean` keeps in a rooted path: not empty, not `.`, not `..`,
without a slash. -/
def validElem (e : GoString) : Prop :=
  e ≠ [] ∧ e ≠ [chDot] ∧ e ≠ [chDot, chDot] ∧ chSlash ∉ e

/-- A file system for the examples: the directory `/a/b` holds the entry `l`, a
symlink to its ancestor `/a`, and the regular file `f`. -/
def loopFs : FileSystem :=
  { getwd := .ok (ascii "/")
    evalSymlinks := fun p => if p = ascii "/a/b/l" then .ok (ascii "/a") else .ok p
    openDir := fun p =>
      if p = ascii "/a/b" then .ok ⟨[[ascii "l", ascii "f"]], none⟩ else .error ⟨true, []⟩ }

/-- The stat function of the example: `/a/b/f` is a regular file, any other path a
directory. -/
def loopStat : GoString → Except IOError FileMode :=
  fun p => if p = ascii "/a/b/f" then .ok .regular else .ok .dir

/-- The classification the specification gives for the result `res` of an entry
`line`, given the outcome `hashed` of hashing the file it names: same argument
index and name; skipped iff the file does not exist and ignore-missing is on;
"FAILED open or read" iff hashing failed in any other way; "OK" iff the digest is
the expected one; "FAILED" iff it is another. -/
def classified (opt : Options) (line : checksumLine) (hashed : Except IOError (List Byte))
    (res : checkResult) : Prop :=
  res.ArgI = line.ArgI ∧ res.Name = line.Name ∧
  (res.Stat = statSkipped ↔
    ∃ e, hashed = .error e ∧ opt.IgnoreMissing = true ∧ e.notExist = true) ∧
  (res.Stat = statUnreadable ↔
    ∃ e, hashed = .error e ∧ ¬ (opt.IgnoreMissing = true ∧ e.notExist = true)) ∧
  (res.Stat = statOK ↔ ∃ sum, hashed = .ok sum ∧ sum = line.Sum) ∧
  (res.Stat = statFailed ↔ ∃ sum, hashed = .ok sum ∧ sum ≠ line.Sum)

/-! ## Index and slice expressions -/

theorem index_natCast (s : GoString) (i : Nat) : index s (i : Int) = s[i]? := by
  simp [index]

theorem slice_natCast (s : GoString) (lo hi : Nat) (h1 : lo ≤ hi) (h2 : hi ≤ s.length) :
    slice s (lo : Int) (hi : Int) = some ((s.take hi).drop lo) := by
  have : (0 : Int) ≤ lo ∧ (lo : Int) ≤ hi ∧ (hi : Int) ≤ (s.length : Int) := by omega
  simp [slice, this]

theorem sliceFrom_natCast (s : GoString) (lo : Nat) (h : lo ≤ s.length) :
    sliceFrom s (lo : Int) = some (s.drop lo) := by
  unfold sliceFrom
  rw [slice_natCast s lo s.length h (le_refl _)]
  simp

theorem sliceTo_natCast (s : GoString) (hi : Nat) (h : hi ≤ s.length) :
    sliceTo s (hi : Int) = some (s.take hi) := by
  unfold sliceTo
  have := slice_natCast s 0 hi (Nat.zero_le _) h
  simpa using this

theorem HasPrefix_slash (s : GoString) :
    HasPrefix s [chSlash] = true ↔ ∃ t, s = chSlash :: t := by
  cases s with
  | nil => simp [HasPrefix]
  | cons a t => simp [HasPrefix]

theorem parseGnuSum_eq (r : HashSumReader) (line0 : GoString) :
    r.parseGnuSum line0 =
      some (gnuBody r.Width (HasPrefix line0 [chSlash])
        (if HasPrefix line0 [chSlash] then line0.drop 1 else line0)) := by
  have hstrip : (if HasPrefix line0 [chSlash] = true then sliceFrom line0 1 else some line0)
      = some (if HasPrefix line0 [chSlash] then line0.drop 1 else line0) := by
    by_cases h : HasPrefix line0 [chSlash] = true
    · obtain ⟨t, rfl⟩ := (HasPrefix_slash line0).1 h
      have := sliceFrom_natCast (chSlash :: t) 1 (by simp)
      simp [h] at this ⊢
      exact this
    · simp [h]
  unfold HashSumReader.parseGnuSum
  simp only [hstrip, Option.some_bind]
  generalize (if HasPrefix line0 [chSlash] then line0.drop 1 else line0) = s
  generalize HasPrefix line0 [chSlash] = esc
  unfold gnuBody
  have e0 : ((r.Width : Int) * 2) = ((2 * r.Width : Nat) : Int) := by push_cast; ring
  have e1 : ((r.Width : Int) * 2 + 1) = ((2 * r.Width + 1 : Nat) : Int) := by push_cast; ring
  have e2 : ((r.Width : Int) * 2 + 2) = ((2 * r.Width + 2 : Nat) : Int) := by push_cast; ring
  rw [e1, e2, e0]
  simp only [index_natCast]
  by_cases hlen : s.length ≤ 2 * r.Width + 2
  · have : (s.length : Int) ≤ ((2 * r.Width + 2 : Nat) : Int) := by exact_mod_cast hlen
    rw [if_pos this, if_pos hlen]
  · have hn : ¬ (s.length : Int) ≤ ((2 * r.Width + 2 : Nat) : Int) := by
      intro h; exact hlen (by exact_mod_cast h)
    have h0 : 2 * r.Width < s.length := by omega
    have h1 : 2 * r.Width + 1 < s.length := by omega
    rw [if_neg hn, if_neg hlen]
    rw [sliceTo_natCast s _ (by omega), sliceFrom_natCast s _ (by omega)]
    simp only [List.getElem?_eq_getElem h0, List.getElem?_eq_getElem h1, Option.some_bind,
      ne_eq, Option.some.injEq]
    by_cases c0 : s[2 * r.Width] = chSpace
    · simp only [c0, not_true_eq_false, if_false]
      by_cases c1 : s[2 * r.Width + 1] = chSpace ∨ s[2 * r.Width + 1] = chStar
      · have : ¬ (¬ s[2 * r.Width + 1] = chSpace ∧ ¬ s[2 * r.Width + 1] = chStar) := by tauto
        rw [if_neg this, if_neg this]
        cases hd : (hexDecodeString (List.take (2 * r.Width) s)).2 <;> simp
      · have : (¬ s[2 * r.Width + 1] = chSpace ∧ ¬ s[2 * r.Width + 1] = chStar) := by tauto
        rw [if_pos this, if_pos this]
    · simp [c0]

theorem parseBsdSum_eq (r : HashSumReader) (line0 : GoString) :
    r.parseBsdSum line0 =
      some (bsdBody r.Name r.Width (HasPrefix line0 [chSlash])
        (if HasPrefix line0 [chSlash] then line0.drop 1 else line0)) := by
  have hstrip : (if HasPrefix line0 [chSlash] = true then sliceFrom line0 1 else some line0)
      = some (if HasPrefix line0 [chSlash] then line0.drop 1 else line0) := by
    by_cases h : HasPrefix line0 [chSlash] = true
    · obtain ⟨t, rfl⟩ := (HasPrefix_slash line0).1 h
      have := sliceFrom_natCast (chSlash :: t) 1 (by simp)
      simp [h] at this ⊢
      exact this
    · simp [h]
  unfold HashSumReader.parseBsdSum
  simp only [hstrip, Option.some_bind]
  generalize (if HasPrefix line0 [chSlash] then line0.drop 1 else line0) = s
  generalize HasPrefix line0 [chSlash] = esc
  unfold bsdBody
  by_cases hlen : s.length ≤ 2 * r.Width + r.Name.length + 6
  · have : (s.length : Int) ≤ (r.Width : Int) * 2 + (r.Name.length : Int) + 6 := by omega
    rw [if_pos this, if_pos hlen]
  · have hn : ¬ (s.length : Int) ≤ (r.Width : Int) * 2 + (r.Name.length : Int) + 6 := by omega
    rw [if_neg hn, if_neg hlen]
    have e1 : ((r.Name.length : Int) + 2) = ((r.Name.length + 2 : Nat) : Int) := by push_cast; ring
    have e2 : ((s.length : Int) - (r.Width : Int) * 2 - 4) = ((s.length - 2 * r.Width - 4 : Nat) : Int) := by
      omega
    have e3 : ((s.length : Int) - (r.Width : Int) * 2) = ((s.length - 2 * r.Width : Nat) : Int) := by
      omega
    rw [e1, e2, e3]
    rw [sliceTo_natCast s _ (by omega), slice_natCast s _ _ (by omega) (by omega),
      slice_natCast s _ _ (by omega) (by omega), sliceFrom_natCast s _ (by omega),
      slice_natCast s _ _ (by omega) (by omega)]
    simp only [Option.some_bind, ne_eq]
    by_cases c1 : List.take r.Name.length s = r.Name
    · simp only [c1, not_true_eq_false, if_false, false_and, Option.some_bind]
      cases hd : (hexDecodeString (List.drop (s.length - 2 * r.Width) s)).2 <;> simp
    · simp only [c1, not_false_eq_true, if_true, true_and]
      by_cases c2 : List.drop r.Name.length (List.take (r.Name.length + 2) s) = ascii "( "
      · simp only [c2, not_true_eq_false, if_false, false_and, Option.some_bind]
        cases hd : (hexDecodeString (List.drop (s.length - 2 * r.Width) s)).2 <;> simp
      · simp only [c2, not_false_eq_true, if_true, true_and, Option.some_bind]
        by_cases c3 : List.drop (s.length - 2 * r.Width - 4) (List.take (s.length - 2 * r.Width) s) = ascii ") = "
        · simp only [c3, not_true_eq_false, decide_False, if_false]
          simp
          cases hd : (hexDecodeString (List.drop (s.length - 2 * r.Width) s)).2 <;> simp
        · simp [c3]

/-! ## Hexadecimal coding -/

theorem hexEncodeToString_length (d : List Byte) :
    (hexEncodeToString d).length = 2 * d.length := by
  induction d with
  | nil => rfl
  | cons v rest ih => simp [hexEncodeToString, ih]; omega

theorem fromHexChar_hextable : ∀ n : Fin 16, fromHexChar (hextable.getD n.val 0) = some n.val := by
  decide

theorem hexDecodeString_encode (d : List Byte) :
    hexDecodeString (hexEncodeToString d) = (d, none) := by
  induction d with
  | nil => rfl
  | cons v rest ih =>
    have h1 := fromHexChar_hextable ⟨v.val / 16, by omega⟩
    have h2 := fromHexChar_hextable ⟨v.val % 16, by omega⟩
    simp only at h1 h2
    simp only [hexEncodeToString, hexDecodeString, h1, h2, ih]
    congr 1
    congr 1
    apply Fin.ext
    simp [Fin.ofNat]
    omega

theorem hexDecodeString_err_of_mem (s : GoString) (c : Byte) (hc : c ∈ s)
    (hbad : fromHexChar c = none) : (hexDecodeString s).2 ≠ none := by
  induction s using hexDecodeString.induct with
  | case1 => simp at hc
  | case2 c' h => simp [hexDecodeString, h]
  | case3 c' a h => simp [hexDecodeString, h]
  | case4 p q rest h => simp [hexDecodeString, h]
  | case5 p q rest a hp hq => simp [hexDecodeString, hp, hq]
  | case6 p q rest a hp b hq ih =>
    simp only [hexDecodeString, hp, hq]
    simp only [List.mem_cons] at hc
    rcases hc with rfl | rfl | hc
    · rw [hbad] at hp; cases hp
    · rw [hbad] at hq; cases hq
    · exact ih hc

/-! ## The plain-format parser -/

set_option maxRecDepth 100000 in
theorem isHexDigit_facts : ∀ c : Byte, isHexDigit c = true →
    c ≠ chSpace ∧ c ≠ chSlash ∧ c ≠ chBackslash ∧ (fromHexChar c).isSome = true := by
  decide

theorem gnuBody_ok_false (W : Nat) (esc : Bool) (s : GoString)
    (h : (∃ c ∈ s.take (2 * W), fromHexChar c = none) ∨ s[2 * W]? ≠ some chSpace) :
    (gnuBody W esc s).ok = false := by
  unfold gnuBody
  split_ifs with h1 h2 h3 <;> try rfl
  all_goals
    rcases h with ⟨c, hc, hbad⟩ | h
    · have := hexDecodeString_err_of_mem _ c hc hbad
      cases hd : (hexDecodeString (List.take (2 * W) s)).2 with
      | none => exact absurd hd this
      | some e => simp [hd]
    · exact absurd h h2

/-- The plain-format body with a hex field one character short or long is rejected. -/
theorem gnuBody_off_by_one (W : Nat) (esc : Bool) (p h f : GoString) (flag : Byte)
    (hp : p = [] ∨ p = [chBackslash])
    (hhex : ∀ c ∈ h, isHexDigit c = true)
    (hlen : h.length + 1 = 2 * W ∨ h.length = 2 * W + 1) :
    (gnuBody W esc (p ++ h ++ chSpace :: flag :: f)).ok = false := by
  apply gnuBody_ok_false
  have hq : ∀ c ∈ p ++ h, c ≠ chSpace := by
    intro c hc
    rcases List.mem_append.1 hc with hc | hc
    · rcases hp with rfl | rfl
      · simp at hc
      · simp at hc; subst hc; decide
    · exact (isHexDigit_facts c (hhex c hc)).1
  by_cases hl : 2 * W < (p ++ h).length
  · right
    rw [List.getElem?_append_left hl, List.getElem?_eq_getElem hl]
    intro e
    simp only [Option.some.injEq] at e
    exact hq _ (List.getElem_mem _) e
  · left
    by_cases he : (p ++ h).length = 2 * W
    · -- only possible with the backslash in front
      rcases hp with rfl | rfl
      · simp at he; omega
      · refine ⟨chBackslash, ?_, by decide⟩
        have : 0 < 2 * W := by simp at he; omega
        obtain ⟨k, hk⟩ : ∃ k, 2 * W = k + 1 := ⟨2 * W - 1, by omega⟩
        rw [hk]
        simp
    · refine ⟨chSpace, ?_, by decide⟩
      have hlt : (p ++ h).length < 2 * W := by omega
      rw [List.take_append_eq_append_take]
      apply List.mem_append_right
      obtain ⟨k, hk⟩ : ∃ k, 2 * W - (p ++ h).length = k + 1 := ⟨2 * W - (p ++ h).length - 1, by omega⟩
      rw [hk]
      simp

/-- C3: for every width `W`, every string `h` of hexadecimal characters of length
`2W-1` or `2W+1`, every flag byte (in particular space and asterisk) and every
file name `f`, `parseGnuSum` returns `ok = false` on `h ++ " " ++ flag ++ f`, bare
or behind a leading marker (the slash the reader strips, or the backslash the
writer puts). -/
theorem parseGnuSum_rejects_hex_width_off_by_one (r : HashSumReader) (h f : GoString)
    (flag : Byte) (marker : GoString)
    (hhex : ∀ c ∈ h, isHexDigit c = true)
    (hlen : h.length + 1 = 2 * r.Width ∨ h.length = 2 * r.Width + 1)
    (_hflag : flag = chSpace ∨ flag = chStar)
    (hmarker : marker = [] ∨ marker = [chSlash] ∨ marker = [chBackslash]) :
    ∃ res, r.parseGnuSum (marker ++ h ++ chSpace :: flag :: f) = some res ∧ res.ok = false := by
  rw [parseGnuSum_eq]
  refine ⟨_, rfl, ?_⟩
  obtain ⟨c, t, rfl⟩ : ∃ c t, h = c :: t := by
    cases h with
    | nil => simp at hlen; omega
    | cons c t => exact ⟨c, t, rfl⟩
  have hc := isHexDigit_facts c (hhex c (by simp))
  rcases hmarker with rfl | rfl | rfl
  · have hp : HasPrefix ([] ++ c :: t ++ chSpace :: flag :: f) [chSlash] = false := by
      simp [HasPrefix]; exact hc.2.1
    rw [hp]
    simp only [Bool.false_eq_true, if_false]
    exact gnuBody_off_by_one r.Width false [] (c :: t) f flag (Or.inl rfl) hhex hlen
  · have hp : HasPrefix ([chSlash] ++ c :: t ++ chSpace :: flag :: f) [chSlash] = true := by
      simp [HasPrefix]
    rw [hp]
    simp only [if_true]
    exact gnuBody_off_by_one r.Width true [] (c :: t) f flag (Or.inl rfl) hhex hlen
  · have hp : HasPrefix ([chBackslash] ++ c :: t ++ chSpace :: flag :: f) [chSlash] = false := by
      simp [HasPrefix]; decide
    rw [hp]
    simp only [Bool.false_eq_true, if_false]
    exact gnuBody_off_by_one r.Width false [chBackslash] (c :: t) f flag (Or.inr rfl) hhex hlen

set_option maxRecDepth 100000 in
theorem parseGnuSum_rejects_hex_width_off_by_one_witness :
    ∃ res, (HashSumReader.mk (ascii "SHA256") 1 false false false).parseGnuSum
      ([] ++ ascii "0" ++ chSpace :: chSpace :: ascii " x") = some res ∧ res.ok = false :=
  parseGnuSum_rejects_hex_width_off_by_one ⟨ascii "SHA256", 1, false, false, false⟩
    (ascii "0") (ascii " x") chSpace [] (by decide) (by decide) (by decide) (by decide)

/-! ## The writer -/

theorem indexAnyFrom_neg (chars s : GoString) (i : Nat) :
    indexAnyFrom chars s i < 0 ↔ ∀ b ∈ s, b ∉ chars := by
  induction s generalizing i with
  | nil => simp [indexAnyFrom]
  | cons b rest ih =>
    by_cases hb : b ∈ chars
    · simp only [indexAnyFrom, hb, if_true, List.mem_cons, forall_eq_or_imp, not_true_eq_false,
        false_and, iff_false, not_lt]
      omega
    · simp only [indexAnyFrom, hb, if_false, List.mem_cons, forall_eq_or_imp, not_false_eq_true,
        true_and]
      exact ih (i + 1)

theorem IndexAny_escape_neg (name : GoString) :
    IndexAny name [chBackslash, chNewline] < 0 ↔ chBackslash ∉ name ∧ chNewline ∉ name := by
  unfold IndexAny
  rw [indexAnyFrom_neg]
  constructor
  · intro h
    exact ⟨fun hm => h _ hm (by simp), fun hm => h _ hm (by simp)⟩
  · rintro ⟨h1, h2⟩ b hb hmem
    simp only [List.mem_cons, List.mem_singleton, List.not_mem_nil, or_false] at hmem
    rcases hmem with rfl | rfl
    · exact h1 hb
    · exact h2 hb

theorem Replace_escape (name : GoString) :
    Replace fileNameEscapeReplacer name = escapedForm name := by
  induction name with
  | nil => rfl
  | cons b rest ih =>
    simp only [Replace, escapedForm, fileNameEscapeReplacer, ih]
    split_ifs <;> rfl

theorem escapeName_eq (name : GoString) :
    escapeName name =
      if chBackslash ∈ name ∨ chNewline ∈ name then (escapedForm name, true) else (name, false) := by
  unfold escapeName
  by_cases h : IndexAny name [chBackslash, chNewline] < 0
  · have h2 := (IndexAny_escape_neg name).1 h
    rw [if_pos h, if_neg (by tauto)]
  · have h2 : ¬ (chBackslash ∉ name ∧ chNewline ∉ name) := fun hh => h ((IndexAny_escape_neg name).2 hh)
    rw [if_neg h, if_pos (by tauto), Replace_escape]

/-- C10: the bytes `Write` emits. In tagged format: prefix, algorithm name, `" ("`,
name, `") = "`, lowercase hex of the digest, separator; in plain format: prefix, hex,
a space, the flag (asterisk in binary mode, space otherwise), name, separator. The
separator is NUL in zero mode and LF otherwise. In zero mode the name is unchanged
and the prefix empty; otherwise a name with a backslash or a newline is written in
its escaped form behind a single backslash, and any other name unchanged with no
prefix. -/
theorem Write_format (w : HashSumWriter) (sum : List Byte) (name : GoString) :
    w.Write sum name =
      (if w.Zero = false ∧ (chBackslash ∈ name ∨ chNewline ∈ name) then [chBackslash] else []) ++
      (if w.Tag then
        w.Name ++ ascii " (" ++
          (if w.Zero = false ∧ (chBackslash ∈ name ∨ chNewline ∈ name) then escapedForm name
           else name) ++
          ascii ") = " ++ hexEncodeToString sum
       else
        hexEncodeToString sum ++ [chSpace] ++ [if w.Binary then chStar else chSpace] ++
          (if w.Zero = false ∧ (chBackslash ∈ name ∨ chNewline ∈ name) then escapedForm name
           else name)) ++
      (if w.Zero then [chNul] else [chNewline]) := by
  unfold HashSumWriter.Write
  rw [escapeName_eq]
  cases hz : w.Zero <;> cases ht : w.Tag <;>
    by_cases hn : (chBackslash ∈ name ∨ chNewline ∈ name) <;>
    simp [hn]

/-! ## Reading back a written line -/

theorem hextable_getD_ne_slash : ∀ n : Fin 16, hextable.getD n.val 0 ≠ chSlash := by
  decide

theorem hexEncodeToString_head_ne_slash (d : List Byte) (t : GoString) :
    HasPrefix (hexEncodeToString d ++ chSpace :: t) [chSlash] = false := by
  cases d with
  | nil => simp [hexEncodeToString, HasPrefix]; decide
  | cons v rest =>
    have := hextable_getD_ne_slash ⟨v.val / 16, by omega⟩
    simp only at this
    simp only [hexEncodeToString, HasPrefix, List.cons_append, List.length_cons,
      List.length_nil, List.take_succ_cons, List.take_zero, List.cons.injEq, and_true,
      Bool.and_eq_false_imp, decide_eq_true_eq, decide_eq_false_iff_not]
    intro _
    exact this

theorem gnuBody_written (d : List Byte) (flag : Byte) (name : GoString)
    (hflag : flag = chSpace ∨ flag = chStar) (hne : name ≠ []) :
    gnuBody d.length false (hexEncodeToString d ++ [chSpace] ++ [flag] ++ name) =
      ⟨d, name, true⟩ := by
  have hl := hexEncodeToString_length d
  have hpos : 0 < name.length := List.length_pos.2 hne
  have e : hexEncodeToString d ++ [chSpace] ++ [flag] ++ name
      = hexEncodeToString d ++ (chSpace :: flag :: name) := by simp
  rw [e]
  unfold gnuBody
  have h0 : (hexEncodeToString d ++ chSpace :: flag :: name)[2 * d.length]? = some chSpace := by
    rw [List.getElem?_append_right (by omega)]
    simp [hl]
  have h1 : (hexEncodeToString d ++ chSpace :: flag :: name)[2 * d.length + 1]? = some flag := by
    rw [List.getElem?_append_right (by omega)]
    simp [hl]
  have h2 : List.take (2 * d.length) (hexEncodeToString d ++ chSpace :: flag :: name)
      = hexEncodeToString d := List.take_left' hl
  have h3 : List.drop (2 * d.length + 2) (hexEncodeToString d ++ chSpace :: flag :: name)
      = name := by
    rw [List.drop_append_eq_append_drop]
    simp [hl]
  have hlen : (hexEncodeToString d ++ chSpace :: flag :: name).length
      = 2 * d.length + 2 + name.length := by
    simp [hl]; omega
  rw [if_neg (by rw [hlen]; omega), h0, h1, h2, h3, hexDecodeString_encode]
  rcases hflag with rfl | rfl <;> simp

theorem bsdBody_written (algo : GoString) (d : List Byte) (name : GoString) (hne : name ≠ []) :
    bsdBody algo d.length false
        (algo ++ ascii " (" ++ name ++ ascii ") = " ++ hexEncodeToString d) =
      ⟨d, name, true⟩ := by
  have hl := hexEncodeToString_length d
  have hpos : 0 < name.length := List.length_pos.2 hne
  have a1 : (ascii " (").length = 2 := by decide
  have a2 : (ascii ") = ").length = 4 := by decide
  set s := algo ++ ascii " (" ++ name ++ ascii ") = " ++ hexEncodeToString d with hs
  have hlen : s.length = algo.length + 2 + name.length + 4 + 2 * d.length := by
    simp [hs, a1, a2, hl]; omega
  unfold bsdBody
  have h1 : List.take algo.length s = algo := by
    rw [hs]; simp only [List.append_assoc]; exact List.take_left' rfl
  have h2 : List.drop (s.length - 2 * d.length) s = hexEncodeToString d := by
    rw [hs]; exact List.drop_left' (by simp [a1, a2, hl]; omega)
  have h3 : List.drop (algo.length + 2) (List.take (s.length - 2 * d.length - 4) s) = name := by
    have t1 : List.take (s.length - 2 * d.length - 4) s = algo ++ ascii " (" ++ name := by
      rw [hs]
      have : algo ++ ascii " (" ++ name ++ ascii ") = " ++ hexEncodeToString d
          = (algo ++ ascii " (" ++ name) ++ (ascii ") = " ++ hexEncodeToString d) := by simp
      rw [this]
      exact List.take_left' (by simp [a1, a2, hl]; omega)
    rw [t1]
    exact List.drop_left' (by simp [a1])
  rw [if_neg (by omega), h1, h2, h3, hexDecodeString_encode]
  simp

/-- Reading back what `Write` emitted, for a name the writer leaves unescaped: for
every digest, every non-empty name that is written unchanged (zero mode, or no
backslash and no newline in it) and, in tagged format, an algorithm name that does
not start with a slash, the parser of the same format, algorithm name and width
returns the digest and the name with `ok = true` on the line without its separator. -/
theorem Write_parse_unescaped (algo : GoString) (tag zero binary crlf : Bool)
    (digest : List Byte) (name : GoString) (hne : name ≠ [])
    (hun : zero = true ∨ (chBackslash ∉ name ∧ chNewline ∉ name))
    (halgo : tag = true → HasPrefix algo [chSlash] = false) :
    (HashSumReader.mk algo digest.length tag zero crlf).lineParser
        ((HashSumWriter.mk algo tag zero binary).Write digest name).dropLast =
      some ⟨digest, name, true⟩ := by
  rw [Write_format]
  have hesc : ¬ (zero = false ∧ (chBackslash ∈ name ∨ chNewline ∈ name)) := by
    rintro ⟨hz, hm⟩
    rcases hun with h | ⟨h1, h2⟩
    · rw [h] at hz; cases hz
    · rcases hm with hm | hm
      · exact h1 hm
      · exact h2 hm
  simp only [hesc, if_false, List.nil_append]
  have hsep : ∀ x : GoString, (x ++ (if zero = true then [chNul] else [chNewline])).dropLast = x := by
    intro x; cases zero <;> simp
  rw [hsep]
  unfold HashSumReader.lineParser
  cases tag with
  | false =>
    simp only [Bool.false_eq_true, if_false]
    rw [parseGnuSum_eq]
    have hp : HasPrefix (hexEncodeToString digest ++ [chSpace] ++
        [if binary = true then chStar else chSpace] ++ name) [chSlash] = false := by
      have := hexEncodeToString_head_ne_slash digest
        ((if binary = true then chStar else chSpace) :: name)
      simpa using this
    rw [hp]
    simp only [Bool.false_eq_true, if_false]
    rw [gnuBody_written digest _ name (by cases binary <;> simp) hne]
  | true =>
    simp only [if_true]
    rw [parseBsdSum_eq]
    have hp : HasPrefix (algo ++ ascii " (" ++ name ++ ascii ") = " ++ hexEncodeToString digest)
        [chSlash] = false := by
      have ha := halgo rfl
      cases algo with
      | nil =>
        have e : ascii " (" = chSpace :: [0x28] := by decide
        simp [HasPrefix, e]
        decide
      | cons a t =>
        simp only [HasPrefix, List.length_cons, List.length_nil, zero_add, List.take_succ_cons,
          List.take_zero, List.cons.injEq, and_true, Bool.and_eq_false_imp, decide_eq_true_eq,
          decide_eq_false_iff_not, List.cons_append] at ha ⊢
        intro _
        exact ha (by omega)
    rw [hp]
    simp only [Bool.false_eq_true, if_false]
    rw [bsdBody_written algo digest name hne]

/-! ## The code at inputs where it departs from the specification -/

/-- C1 (failing input): the name `a\b` is written escaped behind a backslash, and
the reader, which looks for a slash, does not undo it: `parseGnuSum` rejects the
plain line that `Write` emitted, and `parseBsdSum` accepts the tagged line with the
file name `(a\\b` in place of `a\b`. -/
theorem Write_escaped_name_not_read_back :
    plainWriter.Write sampleDigest (ascii "a\\b") =
      chBackslash :: (hexEncodeToString sampleDigest ++ ascii "  a\\\\b\n") ∧
    plainReader.parseGnuSum (plainWriter.Write sampleDigest (ascii "a\\b")).dropLast =
      some ⟨[], [], false⟩ ∧
    taggedReader.parseBsdSum (taggedWriter.Write sampleDigest (ascii "a\\b")).dropLast =
      some ⟨sampleDigest, ascii "(a\\\\b", true⟩ := by
  decide

/-- C2 (failing input): the name `caf` followed by the byte 0xE9 (the Latin-1 form
of an accented e) has no NUL byte; `escapeName` leaves it unchanged and
`unescapeName` returns it with the last byte replaced by the three bytes of
U+FFFD. -/
theorem unescapeName_escapeName_non_utf8 :
    escapeName [0x63, 0x61, 0x66, 0xe9] = ([0x63, 0x61, 0x66, 0xe9], false) ∧
    unescapeName (escapeName [0x63, 0x61, 0x66, 0xe9]).1 = [0x63, 0x61, 0x66, 0xef, 0xbf, 0xbd] ∧
    unescapeName (escapeName [0x63, 0x61, 0x66, 0xe9]).1 ≠ [0x63, 0x61, 0x66, 0xe9] := by
  decide

/-- C4 (failing input): `parseBsdSum` accepts a line that has the algorithm name in
front but neither the opening nor the closing marker, and a line that names
another algorithm; neither conforms to the tagged grammar. -/
theorem parseBsdSum_accepts_nonconforming :
    taggedReader.parseBsdSum (ascii "SHA256XXfYYYY" ++ hexEncodeToString sampleDigest) =
      some ⟨sampleDigest, ascii "f", true⟩ ∧
    taggedLineConforms (ascii "SHA256") 32
      (ascii "SHA256XXfYYYY" ++ hexEncodeToString sampleDigest) = false ∧
    taggedReader.parseBsdSum (ascii "SHA512 (f) = " ++ hexEncodeToString sampleDigest) =
      some ⟨sampleDigest, ascii "f", true⟩ ∧
    taggedLineConforms (ascii "SHA256") 32
      (ascii "SHA512 (f) = " ++ hexEncodeToString sampleDigest) = false := by
  decide

/-! ## The check pipeline -/

/-- C5 (failing input): two results of argument 0 arrive, first a Verified one and
then a skipped one. The aggregation loop ends with 0 in the set it reports as "no
file was verified"; with the same two results in the other order it does not. -/
theorem aggregate_verified_then_skipped :
    (0 : Nat) ∈ (aggregate checkOptions
        [⟨0, ascii "a", statOK⟩, ⟨0, ascii "b", statSkipped⟩]).noFileVerifiedSet ∧
    (0 : Nat) ∉ (aggregate checkOptions
        [⟨0, ascii "b", statSkipped⟩, ⟨0, ascii "a", statOK⟩]).noFileVerifiedSet := by
  decide

/-- C8: the exit status at the end of a check run. For every value of the strict
flag and of the counters, `checkMain` exits with failure exactly when (strict is
set and the malformed-line count is not zero) or the unreadable-file count, the
mismatch count or the error count (manifest-level errors plus the arguments left
in the no-file-verified set) is not zero; and without strict, malformed lines
alone leave the exit status 0. -/
theorem checkFinish_exitCode (opt : Options) (agg : AggState) (log : List LogMsg)
    (badLinesCount badFilesCount errorsCount : Int) :
    ((checkFinish opt agg log badLinesCount badFilesCount errorsCount).exitCode = 1 ↔
      ((opt.Strict = true ∧ badLinesCount ≠ 0) ∨ badFilesCount ≠ 0 ∨
        agg.mismatchCount ≠ 0 ∨ errorsCount + agg.noFileVerifiedSet.card ≠ 0)) ∧
    ((checkFinish opt agg log badLinesCount badFilesCount errorsCount).exitCode = 0 ∨
      (checkFinish opt agg log badLinesCount badFilesCount errorsCount).exitCode = 1) ∧
    (opt.Strict = false → badFilesCount = 0 → agg.mismatchCount = 0 →
      errorsCount + agg.noFileVerifiedSet.card = 0 →
      (checkFinish opt agg log badLinesCount badFilesCount errorsCount).exitCode = 0) := by
  unfold checkFinish
  simp only
  refine ⟨?_, ?_, ?_⟩
  · split_ifs with h
    · simp only [true_iff]
      simp only [Bool.or_eq_true, Bool.and_eq_true, decide_eq_true_eq] at h
      tauto
    · simp only [Bool.or_eq_true, Bool.and_eq_true, decide_eq_true_eq] at h
      simp only [Nat.zero_ne_one, false_iff]
      tauto
  · split_ifs <;> simp
  · intro h1 h2 h3 h4
    simp [h1, h2, h3, h4]

theorem stat_distinct :
    statOK ≠ statSkipped ∧ statFailed ≠ statSkipped ∧ statUnreadable ≠ statSkipped ∧
    statOK ≠ statFailed ∧ statOK ≠ statUnreadable ∧ statFailed ≠ statUnreadable := by
  decide

theorem checkWorker_results (opt : Options) (fileHash : GoString → Except IOError (List Byte))
    (lines : List checksumLine) (st : CheckWorkerState) :
    ((lines.foldl (fun st line => checkWorkerStep opt st line (fileHash line.Name)) st).checkCh.map
        fun r => (r.ArgI, r.Name)) =
      (st.checkCh.map fun r => (r.ArgI, r.Name)) ++ lines.map fun l => (l.ArgI, l.Name) := by
  induction lines generalizing st with
  | nil => simp
  | cons l ls ih =>
    rw [List.foldl_cons, ih]
    have : (checkWorkerStep opt st l (fileHash l.Name)).checkCh.map (fun r => (r.ArgI, r.Name))
        = (st.checkCh.map fun r => (r.ArgI, r.Name)) ++ [(l.ArgI, l.Name)] := by
      unfold checkWorkerStep
      split
      · split_ifs <;> simp
      · split_ifs <;> simp
    rw [this]
    simp

/-- One pass of the loop body of `checkWorker`: one result is sent, classified as
the specification says, and the unreadable-file counter goes up by one exactly
with the status "FAILED open or read". -/
theorem checkWorkerStep_spec (opt : Options) (st : CheckWorkerState) (line : checksumLine)
    (hashed : Except IOError (List Byte)) :
    ∃ res : checkResult,
      (checkWorkerStep opt st line hashed).checkCh = st.checkCh ++ [res] ∧
      classified opt line hashed res ∧
      (checkWorkerStep opt st line hashed).badFilesCount =
        st.badFilesCount + (if res.Stat = statUnreadable then 1 else 0) := by
  obtain ⟨h1, h2, h3, h4, h5, h6⟩ := stat_distinct
  unfold checkWorkerStep classified
  cases hashed with
  | error e =>
    by_cases hc : (opt.IgnoreMissing && e.notExist) = true
    · refine ⟨⟨line.ArgI, line.Name, statSkipped⟩, ?_⟩
      have hc2 : opt.IgnoreMissing = true ∧ e.notExist = true := by simpa using hc
      simp only [hc, if_true, true_and, Ne.symm h3, Ne.symm h1, Ne.symm h2, if_false, add_zero]
      simp [hc2]
    · refine ⟨⟨line.ArgI, line.Name, statUnreadable⟩, ?_⟩
      have hc2 : ¬ (opt.IgnoreMissing = true ∧ e.notExist = true) := by simpa using hc
      simp only [hc, if_false, true_and, h3, Ne.symm h5, Ne.symm h6, if_true]
      simp
      intro hi
      cases hne : e.notExist
      · rfl
      · exact absurd ⟨hi, hne⟩ hc2
  | ok sum =>
    by_cases hs : sum = line.Sum
    · refine ⟨⟨line.ArgI, line.Name, statOK⟩, ?_⟩
      simp only [hs, if_true, true_and, h1, h5, h4, if_false, add_zero]
      simp
    · refine ⟨⟨line.ArgI, line.Name, statFailed⟩, ?_⟩
      simp only [hs, if_false, true_and, h2, h6, Ne.symm h4, add_zero]
      simp [hs]

/-- The loop of `checkWorker` from any state: the results sent are those already
sent followed by one classified result per entry, in order, and the counter has
gone up by the number of "FAILED open or read" results among them. -/
theorem checkWorker_foldl (opt : Options) (fileHash : GoString → Except IOError (List Byte))
    (lines : List checksumLine) (st : CheckWorkerState) :
    ∃ rs : List checkResult,
      (lines.foldl (fun st line => checkWorkerStep opt st line (fileHash line.Name)) st).checkCh =
        st.checkCh ++ rs ∧
      List.Forall₂ (fun line res => classified opt line (fileHash line.Name) res) lines rs ∧
      (lines.foldl (fun st line => checkWorkerStep opt st line (fileHash line.Name)) st).badFilesCount =
        st.badFilesCount + ((rs.filter fun r => decide (r.Stat = statUnreadable)).length : Int) := by
  induction lines generalizing st with
  | nil => exact ⟨[], by simp, List.Forall₂.nil, by simp⟩
  | cons l ls ih =>
    obtain ⟨res, hch, hcl, hbad⟩ := checkWorkerStep_spec opt st l (fileHash l.Name)
    obtain ⟨rs, hrs, hall, hcount⟩ := ih (checkWorkerStep opt st l (fileHash l.Name))
    refine ⟨res :: rs, ?_, List.Forall₂.cons hcl hall, ?_⟩
    · rw [List.foldl_cons, hrs, hch]
      simp
    · rw [List.foldl_cons, hcount, hbad, List.filter_cons]
      split_ifs with h1 h2 h2
      · simp only [List.length_cons, Nat.cast_add, Nat.cast_one]; ring
      · simp at h2; exact absurd h1 h2
      · simp at h2; exact absurd h2 h1
      · simp

/-- C9: what `checkWorker` does with the entries it receives, for every outcome of
hashing their files. It sends exactly one result per entry, in order, each with
the argument index and the file name of its entry unchanged. The status of a
result is empty (skipped) iff hashing the entry's file failed with 'file does not
exist' and ignore-missing is on; it is "FAILED open or read" iff hashing failed in
any other way; it is "OK" iff hashing succeeded with the expected digest; it is
"FAILED" iff hashing succeeded with another digest. The unreadable-file counter
ends as the number of results with the status "FAILED open or read"; in one pass
of the loop body it goes up by one exactly with that status. -/
theorem checkWorker_classifies (opt : Options) (st : CheckWorkerState) (line : checksumLine)
    (hashed : Except IOError (List Byte))
    (fileHash : GoString → Except IOError (List Byte)) (lines : List checksumLine) :
    (∃ res : checkResult,
      (checkWorkerStep opt st line hashed).checkCh = st.checkCh ++ [res] ∧
      res.ArgI = line.ArgI ∧ res.Name = line.Name ∧
      (res.Stat = statSkipped ↔
        ∃ e, hashed = .error e ∧ opt.IgnoreMissing = true ∧ e.notExist = true) ∧
      (res.Stat = statUnreadable ↔
        ∃ e, hashed = .error e ∧ ¬ (opt.IgnoreMissing = true ∧ e.notExist = true)) ∧
      (res.Stat = statOK ↔ ∃ sum, hashed = .ok sum ∧ sum = line.Sum) ∧
      (res.Stat = statFailed ↔ ∃ sum, hashed = .ok sum ∧ sum ≠ line.Sum) ∧
      (checkWorkerStep opt st line hashed).badFilesCount =
        st.badFilesCount + (if res.Stat = statUnreadable then 1 else 0)) ∧
    List.Forall₂
      (fun (l : checksumLine) (res : checkResult) =>
        res.ArgI = l.ArgI ∧ res.Name = l.Name ∧
        (res.Stat = statSkipped ↔
          ∃ e, fileHash l.Name = .error e ∧ opt.IgnoreMissing = true ∧ e.notExist = true) ∧
        (res.Stat = statUnreadable ↔
          ∃ e, fileHash l.Name = .error e ∧ ¬ (opt.IgnoreMissing = true ∧ e.notExist = true)) ∧
        (res.Stat = statOK ↔ ∃ sum, fileHash l.Name = .ok sum ∧ sum = l.Sum) ∧
        (res.Stat = statFailed ↔ ∃ sum, fileHash l.Name = .ok sum ∧ sum ≠ l.Sum))
      lines (checkWorker opt fileHash lines).checkCh ∧
    (checkWorker opt fileHash lines).checkCh.length = lines.length ∧
    (checkWorker opt fileHash lines).badFilesCount =
      (((checkWorker opt fileHash lines).checkCh.filter
        fun r => decide (r.Stat = statUnreadable)).length : Int) ∧
    ((checkWorker opt fileHash lines).checkCh.map fun r => (r.ArgI, r.Name)) =
      lines.map fun l => (l.ArgI, l.Name) := by
  obtain ⟨rs, hrs, hall, hcount⟩ := checkWorker_foldl opt fileHash lines ⟨[], 0, []⟩
  have hch : (checkWorker opt fileHash lines).checkCh = rs := by
    unfold checkWorker
    rw [hrs]
    rfl
  refine ⟨?_, ?_, ?_, ?_, ?_⟩
  · obtain ⟨res, h1, h2, h3⟩ := checkWorkerStep_spec opt st line hashed
    exact ⟨res, h1, h2.1, h2.2.1, h2.2.2.1, h2.2.2.2.1, h2.2.2.2.2.1, h2.2.2.2.2.2, h3⟩
  · rw [hch]
    exact hall
  · rw [hch]
    exact hall.length_eq.symm
  · rw [hch]
    unfold checkWorker
    rw [hcount]
    simp
  · unfold checkWorker
    rw [checkWorker_results]
    simp

/-- A bare plain line whose hex field is one character short or long is rejected. -/
theorem parseGnuSum_bare_off_by_one (r : HashSumReader) (h f : GoString) (flag : Byte)
    (hhex : ∀ c ∈ h, isHexDigit c = true)
    (hlen : h.length + 1 = 2 * r.Width ∨ h.length = 2 * r.Width + 1) :
    (r.parsed (h ++ chSpace :: flag :: f)).ok = false ∨ r.Tag = true := by
  by_cases ht : r.Tag = true
  · exact Or.inr ht
  · left
    unfold HashSumReader.parsed
    rw [if_neg ht]
    obtain ⟨c, t, rfl⟩ : ∃ c t, h = c :: t := by
      cases h with
      | nil => simp at hlen; omega
      | cons c t => exact ⟨c, t, rfl⟩
    have hc := isHexDigit_facts c (hhex c (by simp))
    have hp : HasPrefix (c :: t ++ chSpace :: flag :: f) [chSlash] = false := by
      simp [HasPrefix]; exact hc.2.1
    rw [hp]
    simp only [Bool.false_eq_true, if_false]
    exact gnuBody_off_by_one r.Width false [] (c :: t) f flag (Or.inl rfl) hhex hlen


theorem lineParser_eq (r : HashSumReader) (text : GoString) :
    r.lineParser text = some (r.parsed text) := by
  unfold HashSumReader.lineParser HashSumReader.parsed
  by_cases ht : r.Tag = true
  · rw [if_pos ht, if_pos ht]
    exact parseBsdSum_eq r text
  · rw [if_neg ht, if_neg ht]
    exact parseGnuSum_eq r text

theorem readStep_eq (r : HashSumReader) (path : GoString) (st : ReadState) (text : GoString) :
    r.readStep path st text =
      some ⟨st.validLineCount + (if (r.validEntry path text).isSome then 1 else 0),
        st.lineNo + 1, st.calls ++ [r.expectedCall path (st.lineNo + 1) text]⟩ := by
  unfold HashSumReader.readStep HashSumReader.expectedCall HashSumReader.validEntry
  rw [lineParser_eq]
  simp only [Option.some_bind]
  by_cases hok : (r.parsed text).ok = true
  · by_cases hd : (r.parsed text).file = [chDash] ∧ path = [chDash]
    · simp [hok, hd.1, hd.2]
    · have hd2 : ¬ (path = [chDash] ∧ (r.parsed text).file = [chDash]) := fun h => hd ⟨h.2, h.1⟩
      have hb : ((r.parsed text).ok && decide ((r.parsed text).file = [chDash]) &&
          decide (path = [chDash])) = false := by
        simp only [hok, Bool.true_and, Bool.and_eq_false_imp, decide_eq_true_eq,
          decide_eq_false_iff_not]
        intro h1 h2
        exact hd ⟨h1, h2⟩
      simp [hb, hd2, hok]
      intro h1 h2
      exact hd ⟨h1, h2⟩
  · have hok2 : (r.parsed text).ok = false := by simpa using hok
    simp [hok2]

theorem readLoop_eq (r : HashSumReader) (path : GoString) (lines : List GoString)
    (st : ReadState) :
    r.readLoop path lines st =
      some ⟨st.validLineCount + (lines.filter fun l => (r.validEntry path l).isSome).length,
        st.lineNo + lines.length, st.calls ++ r.expectedCallsFrom path st.lineNo lines⟩ := by
  induction lines generalizing st with
  | nil => simp [HashSumReader.readLoop, HashSumReader.expectedCallsFrom]
  | cons l ls ih =>
    rw [HashSumReader.readLoop, readStep_eq, Option.some_bind, ih]
    simp only [HashSumReader.expectedCallsFrom, List.filter_cons, List.length_cons,
      List.append_assoc, List.singleton_append, Nat.cast_add, Nat.cast_one]
    congr 1
    refine ReadState.mk.injEq .. |>.mpr ⟨?_, ?_, rfl⟩
    · split_ifs <;> simp; omega
    · omega

theorem Read_eq (r : HashSumReader) (path : GoString) (lines : List GoString) :
    r.Read path (.ok ⟨lines, none⟩) =
      some (r.expectedCallsFrom path 0 lines ++
        if (lines.filter fun l => (r.validEntry path l).isSome).length = 0 then
          [r.noValidCall path]
        else []) := by
  unfold HashSumReader.Read
  simp only [readLoop_eq, Option.some_bind, zero_add, List.nil_append]
  split_ifs <;> simp [HashSumReader.noValidCall]

theorem expectedCallsFrom_length (r : HashSumReader) (path : GoString) (n : Int)
    (lines : List GoString) : (r.expectedCallsFrom path n lines).length = lines.length := by
  induction lines generalizing n with
  | nil => rfl
  | cons l ls ih => simp [HashSumReader.expectedCallsFrom, ih]

theorem expectedCallsFrom_getElem? (r : HashSumReader) (path : GoString) (n : Int)
    (lines : List GoString) (i : Nat) (h : i < lines.length) :
    (r.expectedCallsFrom path n lines)[i]? = some (r.expectedCall path (n + i + 1) lines[i]) := by
  induction lines generalizing n i with
  | nil => simp at h
  | cons l ls ih =>
    cases i with
    | zero => simp [HashSumReader.expectedCallsFrom]
    | succ j =>
      simp only [HashSumReader.expectedCallsFrom, List.getElem?_cons_succ, List.getElem_cons_succ]
      rw [ih (n + 1) j (by simpa using h)]
      congr 2
      push_cast
      ring

theorem validEntry_eq (r : HashSumReader) (path text : GoString) :
    r.validEntry path text =
      if (r.parsed text).ok = true ∧ ¬ (path = [chDash] ∧ (r.parsed text).file = [chDash]) then
        some ((r.parsed text).sum, (r.parsed text).file)
      else none := by
  unfold HashSumReader.validEntry
  rw [lineParser_eq]

theorem plainReader_parsed_written (d : List Byte) (flag : Byte) (name : GoString)
    (hd : d.length = 32) (hflag : flag = chSpace ∨ flag = chStar) (hne : name ≠ []) :
    plainReader.parsed (hexEncodeToString d ++ [chSpace] ++ [flag] ++ name) = ⟨d, name, true⟩ := by
  unfold HashSumReader.parsed
  have ht : plainReader.Tag = false := rfl
  have hw : plainReader.Width = d.length := by rw [hd]; rfl
  rw [ht, hw]
  simp only [Bool.false_eq_true, if_false]
  have hp : HasPrefix (hexEncodeToString d ++ [chSpace] ++ [flag] ++ name) [chSlash] = false := by
    have := hexEncodeToString_head_ne_slash d (flag :: name)
    simpa using this
  rw [hp]
  simp only [Bool.false_eq_true, if_false]
  exact gnuBody_written d flag name hflag hne

/-- C7: the callback invocations of `Read` for a manifest scanned without error.
The callback is invoked once per line, in line order: for a valid line with its
digest and file name and no error, for any other line with a `BadLineError` that
carries the manifest path and the 1-based line number; a line is valid iff the
configured parser accepts it and not both the path and the parsed name are the
stdin placeholder (`validEntry`). One further invocation, with the file-level
error, follows iff no line is valid. Hence, with the reader of the check mode, a
manifest of one well-formed plain line and one line whose hex field has 63
characters yields one entry and one `BadLineError` for line 2, and no file-level
error. -/
theorem Read_callbacks (r : HashSumReader) (path : GoString) (lines : List GoString) :
    (∃ calls, r.Read path (.ok ⟨lines, none⟩) = some calls ∧
      (∀ (i : Nat) (h : i < lines.length),
        (∀ e, r.validEntry path lines[i] = some e → calls[i]? = some ⟨e.1, e.2, none⟩) ∧
        (r.validEntry path lines[i] = none →
          calls[i]? = some ⟨[], path, some (.badLine ⟨path, (i : Int) + 1, r.Name⟩)⟩)) ∧
      ((∀ l ∈ lines, r.validEntry path l = none) →
        calls.length = lines.length + 1 ∧
        calls[lines.length]? = some ⟨[], path, some (.noValidLines path r.Name)⟩) ∧
      ((∃ l ∈ lines, r.validEntry path l ≠ none) → calls.length = lines.length)) ∧
    (∀ (d : List Byte) (name h f : GoString) (flag : Byte),
      d.length = 32 → name ≠ [] → ¬ (path = [chDash] ∧ name = [chDash]) →
      h.length = 63 → (∀ c ∈ h, isHexDigit c = true) →
      plainReader.Read path
          (.ok ⟨[hexEncodeToString d ++ [chSpace] ++ [chSpace] ++ name,
                 h ++ chSpace :: flag :: f], none⟩) =
        some [⟨d, name, none⟩, ⟨[], path, some (.badLine ⟨path, 2, ascii "SHA256"⟩)⟩]) := by
  refine ⟨⟨_, Read_eq r path lines, ?_, ?_, ?_⟩, ?_⟩
  · intro i h
    have hi : i < (r.expectedCallsFrom path 0 lines).length := by
      rw [expectedCallsFrom_length]; exact h
    have key := expectedCallsFrom_getElem? r path 0 lines i h
    rw [List.getElem?_append_left hi, key]
    constructor
    · intro e he
      simp [HashSumReader.expectedCall, he]
    · intro he
      simp [HashSumReader.expectedCall, he]
  · intro hall
    have hf : (lines.filter fun l => (r.validEntry path l).isSome) = [] := by
      rw [List.filter_eq_nil_iff]
      intro l hl
      simp [hall l hl]
    rw [hf]
    simp only [List.length_nil, if_true, List.length_append, expectedCallsFrom_length,
      List.length_singleton, true_and]
    rw [List.getElem?_append_right (by rw [expectedCallsFrom_length])]
    simp [expectedCallsFrom_length, HashSumReader.noValidCall]
  · rintro ⟨l, hl, hv⟩
    have hf : (lines.filter fun l => (r.validEntry path l).isSome).length ≠ 0 := by
      intro h0
      have hnil := List.length_eq_zero.1 h0
      rw [List.filter_eq_nil_iff] at hnil
      have := hnil l hl
      cases hve : r.validEntry path l with
      | none => exact hv hve
      | some e => simp [hve] at this
    rw [if_neg hf]
    simp [expectedCallsFrom_length]
  · intro d name h f flag hd hne hdash hh hhex
    have v1 : plainReader.validEntry path (hexEncodeToString d ++ [chSpace] ++ [chSpace] ++ name)
        = some (d, name) := by
      rw [validEntry_eq, plainReader_parsed_written d chSpace name hd (Or.inl rfl) hne]
      simp only [true_and]
      rw [if_pos hdash]
    have v2 : plainReader.validEntry path (h ++ chSpace :: flag :: f) = none := by
      rw [validEntry_eq]
      have := parseGnuSum_bare_off_by_one plainReader h f flag hhex
        (Or.inl (by rw [hh]; rfl))
      rcases this with h1 | h1
      · simp [h1]
      · cases h1
    rw [Read_eq]
    simp only [HashSumReader.expectedCallsFrom, HashSumReader.expectedCall, List.filter_cons,
      List.filter_nil, v1, v2, Option.isSome_some, Option.isSome_none, if_true,
      Bool.false_eq_true, if_false, List.length_cons, List.length_nil]
    simp
    rfl

/-! ## A whole check run -/

theorem foldl_expectedCalls (opt : Options) (r : HashSumReader) (path : GoString) (i : Nat)
    (lines : List GoString) (n : Int) (st : ReadSumState) :
    (r.expectedCallsFrom path n lines).foldl (readSumCallback opt i) st =
      ⟨st.lineCh ++ (lines.filterMap (r.validEntry path)).map (fun e => ⟨i, e.2, e.1⟩),
       st.badLinesCount + (lines.filter fun l => (r.validEntry path l).isNone).length,
       st.errorsCount,
       st.log ++ badLineLog opt r path n lines⟩ := by
  induction lines generalizing n st with
  | nil => simp [HashSumReader.expectedCallsFrom, badLineLog]
  | cons l ls ih =>
    rw [HashSumReader.expectedCallsFrom, List.foldl_cons, ih]
    cases hv : r.validEntry path l with
    | none =>
      simp only [HashSumReader.expectedCall, hv, readSumCallback, badLineLog, List.filterMap_cons,
        List.filter_cons, Option.isNone_none, if_true, List.length_cons, and_true]
      refine ReadSumState.mk.injEq .. |>.mpr ⟨rfl, ?_, rfl, ?_⟩
      · push_cast; ring
      · cases opt.Warn <;> simp
    | some e =>
      simp only [HashSumReader.expectedCall, hv, readSumCallback, badLineLog, List.filterMap_cons,
        List.filter_cons, Option.isNone_some, Bool.false_eq_true, if_false, List.map_cons,
        and_false, List.nil_append]
      refine ReadSumState.mk.injEq .. |>.mpr ⟨?_, rfl, rfl, ?_⟩
      · simp
      · simp

theorem filter_isSome_length (f : GoString → Option (List Byte × GoString)) (lines : List GoString) :
    (lines.filter fun l => (f l).isSome).length = (lines.filterMap f).length := by
  induction lines with
  | nil => rfl
  | cons l ls ih =>
    cases h : f l <;> simp [List.filter_cons, List.filterMap_cons, h, ih]

theorem filterMap_nil_of_all_none (f : GoString → Option (List Byte × GoString))
    (lines : List GoString) (h : ∀ l ∈ lines, f l = none) : lines.filterMap f = [] := by
  induction lines with
  | nil => rfl
  | cons l ls ih =>
    rw [List.filterMap_cons, h l (by simp)]
    exact ih (fun l' hl' => h l' (by simp [hl']))

theorem readSumWorker_two (opt : Options) (p0 p1 : GoString) (lines0 lines1 : List GoString)
    (sum : List Byte) (file : GoString)
    (hpaths : opt.Paths = [p0, p1])
    (h0 : ∀ l ∈ lines0, (checkReader opt).validEntry p0 l = none)
    (h1 : lines1.filterMap ((checkReader opt).validEntry p1) = [(sum, file)]) :
    readSumWorker opt [.ok ⟨lines0, none⟩, .ok ⟨lines1, none⟩] =
      some ⟨[⟨1, file, sum⟩],
        (lines0.filter fun l => ((checkReader opt).validEntry p0 l).isNone).length +
          (lines1.filter fun l => ((checkReader opt).validEntry p1 l).isNone).length,
        1,
        badLineLog opt (checkReader opt) p0 0 lines0 ++
          [LogMsg.readError (.noValidLines p0 (ascii "SHA256"))] ++
          badLineLog opt (checkReader opt) p1 0 lines1⟩ := by
  unfold readSumWorker
  rw [hpaths]
  have e0 : (lines0.filter fun l => ((checkReader opt).validEntry p0 l).isSome).length = 0 := by
    rw [filter_isSome_length, filterMap_nil_of_all_none _ _ h0]; rfl
  have e1 : (lines1.filter fun l => ((checkReader opt).validEntry p1 l).isSome).length ≠ 0 := by
    rw [filter_isSome_length, h1]; simp
  have f0 := filterMap_nil_of_all_none _ _ h0
  simp only [readSumLoop, Read_eq, Option.some_bind, e0, if_true, e1, if_false, List.append_nil,
    List.foldl_append, foldl_expectedCalls, f0, h1, List.map_nil, List.map_cons, List.foldl_cons,
    List.foldl_nil, HashSumReader.noValidCall, readSumCallback, List.nil_append]
  simp [checkReader]

/-- C6 (as amended): a check run over two manifest arguments, the first without a
valid line and the second with exactly one valid entry whose file hashes to another
digest. The run logs the file-level error "no properly formatted checksum lines
found" for the first argument and counts it as one error, reports "no file was
verified" for no argument, prints the status FAILED for the entry of the second
argument, and exits with status 1. -/
theorem checkMain_no_valid_lines_and_mismatch (opt : Options) (p0 p1 : GoString)
    (lines0 lines1 : List GoString) (fileHash : GoString → Except IOError (List Byte))
    (sum d : List Byte) (file : GoString)
    (hpaths : opt.Paths = [p0, p1])
    (h0 : ∀ l ∈ lines0, (checkReader opt).validEntry p0 l = none)
    (h1 : lines1.filterMap ((checkReader opt).validEntry p1) = [(sum, file)])
    (hh : fileHash file = .ok d) (hd : d ≠ sum) :
    ∃ out, checkMain opt [.ok ⟨lines0, none⟩, .ok ⟨lines1, none⟩] fileHash = some out ∧
      LogMsg.readError (.noValidLines p0 (ascii "SHA256")) ∈ out.log ∧
      out.errorsCount = 1 ∧
      out.noFileVerified = ∅ ∧
      out.printed = [statusLine (displayName file) statFailed] ∧
      LogMsg.warnMismatch 1 ∈ out.warnings ∧
      out.exitCode = 1 := by
  obtain ⟨s1, s2, s3, s4, s5, s6⟩ := stat_distinct
  have hne : statFailed ≠ ([] : GoString) := s2
  have hw : checkWorker opt fileHash [⟨1, file, sum⟩] =
      ⟨[⟨1, file, statFailed⟩], 0, []⟩ := by
    simp [checkWorker, checkWorkerStep, hh, hd]
  have ha : aggregate opt [⟨1, file, statFailed⟩] =
      ⟨∅, ∅, 1, [statusLine (displayName file) statFailed]⟩ := by
    simp only [aggregate, List.foldl_cons, List.foldl_nil, aggStep, hne, if_false,
      Finset.not_mem_empty, Ne.symm s4, if_true, displayName]
    simp
  have hm : checkMain opt [.ok ⟨lines0, none⟩, .ok ⟨lines1, none⟩] fileHash =
      some (checkFinish opt ⟨∅, ∅, 1, [statusLine (displayName file) statFailed]⟩
        ((badLineLog opt (checkReader opt) p0 0 lines0 ++
          [LogMsg.readError (.noValidLines p0 (ascii "SHA256"))] ++
          badLineLog opt (checkReader opt) p1 0 lines1) ++ [])
        (((lines0.filter fun l => ((checkReader opt).validEntry p0 l).isNone).length : Int) +
          (lines1.filter fun l => ((checkReader opt).validEntry p1 l).isNone).length) 0 1) := by
    unfold checkMain
    rw [readSumWorker_two opt p0 p1 lines0 lines1 sum file hpaths h0 h1]
    simp only [Option.some_bind, hw, ha]
  refine ⟨_, hm, ?_⟩
  unfold checkFinish
  simp

theorem checkMain_no_valid_lines_and_mismatch_witness :
    ∃ out, checkMain checkOptions [.ok ⟨[junkLine], none⟩, .ok ⟨[sampleLine], none⟩] zeroHash =
        some out ∧
      LogMsg.readError (.noValidLines (ascii "m0") (ascii "SHA256")) ∈ out.log ∧
      out.errorsCount = 1 ∧
      out.noFileVerified = ∅ ∧
      out.printed = [statusLine (displayName (ascii "f")) statFailed] ∧
      LogMsg.warnMismatch 1 ∈ out.warnings ∧
      out.exitCode = 1 :=
  checkMain_no_valid_lines_and_mismatch checkOptions (ascii "m0") (ascii "m1") [junkLine]
    [sampleLine] zeroHash sampleDigest (List.replicate 32 0) (ascii "f") rfl (by decide)
    (by decide) rfl (by decide)

/-- C6 (counterexample): the first manifest holds one line that no parser accepts,
the second one valid entry whose file hashes to another digest. The run ends with
an empty no-file-verified set: "no file was verified" is reported for no argument,
the first included; the first argument is reported through the file-level error
instead. -/
theorem checkMain_no_valid_lines_not_reported_unverified :
    (checkReader checkOptions).validEntry (ascii "m0") junkLine = none ∧
    (checkReader checkOptions).validEntry (ascii "m1") sampleLine =
      some (sampleDigest, ascii "f") ∧
    (zeroHash (ascii "f") = .ok (List.replicate 32 0) ∧ List.replicate 32 0 ≠ sampleDigest) ∧
    (checkMain checkOptions [.ok ⟨[junkLine], none⟩, .ok ⟨[sampleLine], none⟩] zeroHash).map
        (fun o => (decide ((0 : Nat) ∈ o.noFileVerified), o.noFileVerified.card, o.log,
          o.exitCode)) =
      some (false, 0, [LogMsg.readError (.noValidLines (ascii "m0") (ascii "SHA256"))], 1) :=
  ⟨by decide, by decide, ⟨rfl, by decide⟩, by decide⟩

/-! ## Escaping and unescaping UTF-8 names -/

theorem ofNat_val (n : Nat) (h : n < 256) : ((Fin.ofNat n : Byte)).val = n := by
  simp [Fin.ofNat, Nat.mod_eq_of_lt h]

theorem decodeRune_encodeRune (r : Nat) (rest : GoString) (hr : validRune r = true) :
    decodeRune (encodeRune r ++ rest) = (r, (encodeRune r).length) := by
  simp only [validRune, Bool.or_eq_true, Bool.and_eq_true, decide_eq_true_eq] at hr
  unfold encodeRune
  by_cases h1 : r ≤ 0x7F
  · rw [if_pos h1]
    simp only [List.singleton_append, decodeRune, List.length_singleton]
    rw [ofNat_val r (by omega), if_pos (by omega)]
  · rw [if_neg h1]
    by_cases h2 : r ≤ 0x7FF
    · rw [if_pos h2]
      simp only [List.cons_append, List.nil_append, decodeRune, isCont, List.length_cons,
        List.length_nil]
      rw [ofNat_val (0xC0 + r / 64) (by omega), ofNat_val (0x80 + r % 64) (by omega)]
      rw [if_neg (by omega), if_pos (by omega)]
      simp only [Bool.and_eq_true, decide_eq_true_eq]
      rw [if_pos (by omega)]
      have e : (0xC0 + r / 64) % 32 * 64 + (0x80 + r % 64) % 64 = r := by omega
      simp only [e]
      rw [if_pos (by omega)]
    · rw [if_neg h2]
      have h3 : ¬ (0x10FFFF < r ∨ (0xD800 ≤ r ∧ r ≤ 0xDFFF)) := by omega
      rw [if_neg h3]
      by_cases h4 : r ≤ 0xFFFF
      · rw [if_pos h4]
        simp only [List.cons_append, List.nil_append, decodeRune, isCont, List.length_cons,
          List.length_nil]
        rw [ofNat_val (0xE0 + r / 4096) (by omega), ofNat_val (0x80 + r / 64 % 64) (by omega),
          ofNat_val (0x80 + r % 64) (by omega)]
        rw [if_neg (by omega), if_neg (by omega), if_pos (by omega)]
        simp only [Bool.and_eq_true, decide_eq_true_eq]
        rw [if_pos (by omega)]
        have e : (0xE0 + r / 4096) % 16 * 4096 + (0x80 + r / 64 % 64) % 64 * 64 +
            (0x80 + r % 64) % 64 = r := by omega
        simp only [e]
        rw [if_pos (by omega)]
      · rw [if_neg h4]
        simp only [List.cons_append, List.nil_append, decodeRune, isCont, List.length_cons,
          List.length_nil]
        rw [ofNat_val (0xF0 + r / 262144) (by omega), ofNat_val (0x80 + r / 4096 % 64) (by omega),
          ofNat_val (0x80 + r / 64 % 64) (by omega), ofNat_val (0x80 + r % 64) (by omega)]
        rw [if_neg (by omega), if_neg (by omega), if_neg (by omega), if_pos (by omega)]
        simp only [Bool.and_eq_true, decide_eq_true_eq]
        rw [if_pos (by omega)]
        have e : (0xF0 + r / 262144) % 8 * 262144 + (0x80 + r / 4096 % 64) % 64 * 4096 +
            (0x80 + r / 64 % 64) % 64 * 64 + (0x80 + r % 64) % 64 = r := by omega
        simp only [e]
        rw [if_pos (by omega)]

theorem unescapeLoop_skip (pre rest : GoString) (esc : Bool) (sb : GoString) :
    unescapeLoop (pre ++ rest) pre.length esc sb = unescapeLoop rest 0 esc sb := by
  induction pre with
  | nil => rfl
  | cons b t ih => simpa [unescapeLoop] using ih

theorem encodeRune_ne_nil (r : Nat) : encodeRune r ≠ [] := by
  unfold encodeRune
  split_ifs <;> simp

/-- One step of the loop of `unescapeName` over the encoding of a valid rune. -/
theorem unescapeLoop_encodeRune (r : Nat) (rest : GoString) (esc : Bool) (sb : GoString)
    (hr : validRune r = true) :
    unescapeLoop (encodeRune r ++ rest) 0 esc sb =
      if esc then
        if r = 0x5c then unescapeLoop rest 0 false (sb ++ [chBackslash])
        else if r = 0x6e then unescapeLoop rest 0 false (sb ++ [chNewline])
        else unescapeLoop rest 0 false (sb ++ encodeRune r)
      else if r = 0x5c then unescapeLoop rest 0 true sb
      else unescapeLoop rest 0 false (sb ++ encodeRune r) := by
  have hd := decodeRune_encodeRune r rest hr
  obtain ⟨b, t, hbt⟩ : ∃ b t, encodeRune r = b :: t := by
    cases h : encodeRune r with
    | nil => exact absurd h (encodeRune_ne_nil r)
    | cons b t => exact ⟨b, t, rfl⟩
  rw [hbt] at hd
  have hd2 : decodeRune (b :: (t ++ rest)) = (r, t.length + 1) := by simpa using hd
  have hs : ∀ e s, unescapeLoop (t ++ rest) (t.length + 1 - 1) e s = unescapeLoop rest 0 e s := by
    intro e s
    rw [Nat.add_sub_cancel]
    exact unescapeLoop_skip t rest e s
  conv_lhs => rw [hbt, List.cons_append, unescapeLoop]
  simp only [hd2, hs]

theorem escapedForm_append (a b : GoString) :
    escapedForm (a ++ b) = escapedForm a ++ escapedForm b := by
  induction a with
  | nil => rfl
  | cons c t ih =>
    rw [List.cons_append, escapedForm, escapedForm, ih]
    split_ifs <;> rfl

theorem escapedForm_of_high (s : GoString) (h : ∀ c ∈ s, 0x80 ≤ c.val) : escapedForm s = s := by
  induction s with
  | nil => rfl
  | cons c t ih =>
    have hc := h c (by simp)
    have h1 : c ≠ chBackslash := by
      intro e; rw [e] at hc; revert hc; decide
    have h2 : c ≠ chNewline := by
      intro e; rw [e] at hc; revert hc; decide
    simp only [escapedForm, h1, h2, if_false]
    rw [ih (fun c' hc' => h c' (by simp [hc']))]

theorem escapedForm_encodeRune (r : Nat) (hr : validRune r = true) :
    escapedForm (encodeRune r) =
      if r = 0x5c then [chBackslash, chBackslash]
      else if r = 0x0a then [chBackslash, chLowerN]
      else encodeRune r := by
  simp only [validRune, Bool.or_eq_true, Bool.and_eq_true, decide_eq_true_eq] at hr
  by_cases h1 : r ≤ 0x7F
  · have he : encodeRune r = [Fin.ofNat r] := by simp [encodeRune, h1]
    rw [he]
    by_cases hb : r = 0x5c
    · subst hb; rfl
    · by_cases hn : r = 0x0a
      · subst hn; rfl
      · rw [if_neg hb, if_neg hn]
        have c1 : (Fin.ofNat r : Byte) ≠ chBackslash := by
          intro e
          have := congrArg Fin.val e
          rw [ofNat_val r (by omega)] at this
          exact hb this
        have c2 : (Fin.ofNat r : Byte) ≠ chNewline := by
          intro e
          have := congrArg Fin.val e
          rw [ofNat_val r (by omega)] at this
          exact hn this
        simp [escapedForm, c1, c2]
  · rw [if_neg (by omega), if_neg (by omega)]
    apply escapedForm_of_high
    intro c hc
    unfold encodeRune at hc
    rw [if_neg h1] at hc
    split_ifs at hc with h2 h3 h4
    · simp only [List.mem_cons, List.mem_singleton, List.not_mem_nil, or_false] at hc
      rcases hc with rfl | rfl
      · rw [ofNat_val _ (by omega)]; omega
      · rw [ofNat_val _ (by omega)]; omega
    · omega
    · simp only [List.mem_cons, List.mem_singleton, List.not_mem_nil, or_false] at hc
      rcases hc with rfl | rfl | rfl
      · rw [ofNat_val _ (by omega)]; omega
      · rw [ofNat_val _ (by omega)]; omega
      · rw [ofNat_val _ (by omega)]; omega
    · simp only [List.mem_cons, List.mem_singleton, List.not_mem_nil, or_false] at hc
      rcases hc with rfl | rfl | rfl | rfl
      · rw [ofNat_val _ (by omega)]; omega
      · rw [ofNat_val _ (by omega)]; omega
      · rw [ofNat_val _ (by omega)]; omega
      · rw [ofNat_val _ (by omega)]; omega

theorem escapedForm_of_plain (s : GoString) (h1 : chBackslash ∉ s) (h2 : chNewline ∉ s) :
    escapedForm s = s := by
  induction s with
  | nil => rfl
  | cons c t ih =>
    simp only [List.mem_cons, not_or] at h1 h2
    simp only [escapedForm, Ne.symm h1.1, Ne.symm h2.1, if_false]
    rw [ih h1.2 h2.2]

theorem escapeName_fst (name : GoString) : (escapeName name).1 = escapedForm name := by
  rw [escapeName_eq]
  split_ifs with h
  · rfl
  · simp only [not_or] at h
    exact (escapedForm_of_plain name h.1 h.2).symm

theorem unescapeLoop_escapedForm (rs : List Nat) (sb : GoString)
    (hr : ∀ r ∈ rs, validRune r = true) :
    unescapeLoop (escapedForm (encodeRunes rs)) 0 false sb = sb ++ encodeRunes rs := by
  induction rs generalizing sb with
  | nil => simp [encodeRunes, escapedForm, unescapeLoop]
  | cons r rs ih =>
    have hv := hr r (by simp)
    have ih2 := fun sb => ih sb (fun r' hr' => hr r' (by simp [hr']))
    have e5c : encodeRune 0x5c = [chBackslash] := by decide
    have e6e : encodeRune 0x6e = [chLowerN] := by decide
    have e0a : encodeRune 0x0a = [chNewline] := by decide
    rw [encodeRunes, escapedForm_append, escapedForm_encodeRune r hv]
    by_cases hb : r = 0x5c
    · subst hb
      rw [if_pos rfl]
      have s1 : [chBackslash, chBackslash] ++ escapedForm (encodeRunes rs)
          = encodeRune 0x5c ++ (encodeRune 0x5c ++ escapedForm (encodeRunes rs)) := by
        rw [e5c]; rfl
      rw [s1, unescapeLoop_encodeRune 0x5c _ false sb (by decide)]
      simp only [Bool.false_eq_true, if_false, if_true]
      rw [unescapeLoop_encodeRune 0x5c _ true sb (by decide)]
      simp only [if_true]
      rw [ih2, e5c]
      simp
    · by_cases hn : r = 0x0a
      · subst hn
        rw [if_neg (by decide), if_pos rfl]
        have s1 : [chBackslash, chLowerN] ++ escapedForm (encodeRunes rs)
            = encodeRune 0x5c ++ (encodeRune 0x6e ++ escapedForm (encodeRunes rs)) := by
          rw [e5c, e6e]; rfl
        rw [s1, unescapeLoop_encodeRune 0x5c _ false sb (by decide)]
        simp only [Bool.false_eq_true, if_false, if_true]
        rw [unescapeLoop_encodeRune 0x6e _ true sb (by decide)]
        simp only [if_true]
        rw [if_neg (by decide), ih2, e0a]
        simp
      · rw [if_neg hb, if_neg hn, unescapeLoop_encodeRune r _ false sb hv]
        simp only [Bool.false_eq_true, if_false]
        rw [if_neg hb, ih2]
        simp

/-- For a name that is valid UTF-8 (the encoding of a sequence of Unicode scalar
values, NUL included or not), `unescapeName` undoes `escapeName`. -/
theorem unescapeName_escapeName_utf8 (rs : List Nat) (hr : ∀ r ∈ rs, validRune r = true) :
    unescapeName (escapeName (encodeRunes rs)).1 = encodeRunes rs := by
  rw [escapeName_fst]
  unfold unescapeName
  rw [unescapeLoop_escapedForm rs [] hr]
  rfl

/-! ## The tagged grammar -/

/-- The grammar check `taggedBodyConforms` holds exactly for the strings of the form
algorithm name, `" ("`, file name, `") = "`, `2W` hexadecimal characters. -/
theorem taggedBodyConforms_iff (algo : GoString) (W : Nat) (s : GoString) :
    taggedBodyConforms algo W s = true ↔
      ∃ name hex, s = algo ++ ascii " (" ++ name ++ ascii ") = " ++ hex ∧
        hex.length = 2 * W ∧ ∀ c ∈ hex, isHexDigit c = true := by
  have a1 : (ascii " (").length = 2 := by decide
  have a2 : (ascii ") = ").length = 4 := by decide
  constructor
  · intro h
    simp only [taggedBodyConforms, Bool.and_eq_true, decide_eq_true_eq, List.all_eq_true] at h
    obtain ⟨⟨⟨hlen, hpre⟩, hmid⟩, hhex⟩ := h
    refine ⟨(s.take (s.length - 2 * W - 4)).drop (algo.length + 2), s.drop (s.length - 2 * W),
      ?_, ?_, ?_⟩
    · have e1 : s = s.take (s.length - 2 * W) ++ s.drop (s.length - 2 * W) :=
        (List.take_append_drop _ _).symm
      have e2 : s.take (s.length - 2 * W) =
          (s.take (s.length - 2 * W)).take (s.length - 2 * W - 4) ++
            (s.take (s.length - 2 * W)).drop (s.length - 2 * W - 4) :=
        (List.take_append_drop _ _).symm
      have e3 : (s.take (s.length - 2 * W)).take (s.length - 2 * W - 4) =
          s.take (s.length - 2 * W - 4) := by
        rw [List.take_take]; congr 1; omega
      have e4 : (s.take (s.length - 2 * W)).drop (s.length - 2 * W - 4) = ascii ") = " := by
        rw [← hmid, List.take_drop]
        congr 2; omega
      have e5 : s.take (s.length - 2 * W - 4) =
          (s.take (s.length - 2 * W - 4)).take (algo.length + 2) ++
            (s.take (s.length - 2 * W - 4)).drop (algo.length + 2) :=
        (List.take_append_drop _ _).symm
      have e6 : (s.take (s.length - 2 * W - 4)).take (algo.length + 2) = algo ++ ascii " (" := by
        rw [List.take_take, ← hpre]; congr 1; omega
      calc s = s.take (s.length - 2 * W) ++ s.drop (s.length - 2 * W) := e1
        _ = (s.take (s.length - 2 * W - 4) ++ ascii ") = ") ++ s.drop (s.length - 2 * W) := by
            rw [e2, e3, e4]
        _ = ((algo ++ ascii " (" ++ (s.take (s.length - 2 * W - 4)).drop (algo.length + 2)) ++
              ascii ") = ") ++ s.drop (s.length - 2 * W) := by
            have e7 : s.take (s.length - 2 * W - 4) =
                algo ++ ascii " (" ++ (s.take (s.length - 2 * W - 4)).drop (algo.length + 2) := by
              rw [← e6]; exact e5
            conv_lhs => rw [e7]
    · rw [List.length_drop]; omega
    · intro c hc
      simpa [isHexDigit] using hhex c hc
  · rintro ⟨name, hex, rfl, hl, hhex⟩
    simp only [taggedBodyConforms, Bool.and_eq_true, decide_eq_true_eq, List.all_eq_true]
    have hlen : (algo ++ ascii " (" ++ name ++ ascii ") = " ++ hex).length
        = algo.length + 2 + name.length + 4 + 2 * W := by
      simp [a1, a2, hl]; omega
    refine ⟨⟨⟨by omega, ?_⟩, ?_⟩, ?_⟩
    · have : algo ++ ascii " (" ++ name ++ ascii ") = " ++ hex
          = (algo ++ ascii " (") ++ (name ++ ascii ") = " ++ hex) := by simp
      rw [this]
      exact List.take_left' (by simp [a1])
    · have e : algo ++ ascii " (" ++ name ++ ascii ") = " ++ hex
          = (algo ++ ascii " (" ++ name) ++ (ascii ") = " ++ hex) := by simp
      rw [hlen, e, List.drop_left' (by simp [a1]; omega)]
      exact List.take_left' a2
    · intro c hc
      rw [hlen, List.drop_left' (by simp [a1, a2]; omega)] at hc
      simpa [isHexDigit] using hhex c hc

/-! ## The aggregation loop, argument by argument -/

theorem aggStep_noFileVerifiedSet (opt : Options) (st : AggState) (r : checkResult) :
    (aggStep opt st r).noFileVerifiedSet =
      if r.Stat = [] then
        (if r.ArgI ∉ st.fileVerifiedSet then insert r.ArgI st.noFileVerifiedSet
         else st.noFileVerifiedSet)
      else if r.ArgI ∈ st.noFileVerifiedSet then st.noFileVerifiedSet.erase r.ArgI
      else st.noFileVerifiedSet := by
  unfold aggStep
  split_ifs <;> rfl

theorem aggStep_fileVerifiedSet (opt : Options) (st : AggState) (r : checkResult) :
    (aggStep opt st r).fileVerifiedSet =
      if r.Stat = [] then st.fileVerifiedSet
      else if r.ArgI ∈ st.noFileVerifiedSet then insert r.ArgI st.fileVerifiedSet
      else st.fileVerifiedSet := by
  unfold aggStep
  split_ifs <;> rfl

theorem phaseInv_step (opt : Options) (i : Nat) (st : AggState) (ph : ArgPhase)
    (r : checkResult) (h : phaseInv i st ph) :
    phaseInv i (aggStep opt st r) (phaseStep i ph r) := by
  obtain ⟨h1, h2⟩ := h
  unfold phaseInv
  rw [aggStep_noFileVerifiedSet, aggStep_fileVerifiedSet]
  unfold phaseStep
  by_cases hi : r.ArgI = i
  · subst hi
    by_cases hs : r.Stat = []
    · simp only [hs, if_true]
      cases ph <;> simp_all
    · simp only [hs, if_false, if_true]
      cases ph <;> simp_all
  · have hi2 : i ≠ r.ArgI := fun e => hi e.symm
    simp only [hi, if_false]
    constructor
    · rw [← h1]
      split_ifs <;> simp [Finset.mem_insert, Finset.mem_erase, hi2]
    · rw [← h2]
      split_ifs <;> simp [Finset.mem_insert, hi2]

theorem phaseInv_foldl (opt : Options) (i : Nat) (results : List checkResult)
    (st : AggState) (ph : ArgPhase) (h : phaseInv i st ph) :
    phaseInv i (results.foldl (aggStep opt) st) (results.foldl (phaseStep i) ph) := by
  induction results generalizing st ph with
  | nil => exact h
  | cons r rs ih => exact ih _ _ (phaseInv_step opt i st ph r h)

/-- The aggregation loop, argument by argument: `i` ends in the no-file-verified
set iff its phase ends as `unverified`. -/
theorem aggregate_mem_iff_phase (opt : Options) (results : List checkResult) (i : Nat) :
    i ∈ (aggregate opt results).noFileVerifiedSet ↔ argPhase i results = .unverified := by
  have h0 : phaseInv i ⟨∅, ∅, 0, []⟩ .untouched := by
    constructor <;> simp
  exact (phaseInv_foldl opt i results _ _ h0).1

theorem phase_foldl_filter (i : Nat) (results : List checkResult) (ph : ArgPhase) :
    results.foldl (phaseStep i) ph =
      (results.filter fun r => decide (r.ArgI = i)).foldl (phaseStep i) ph := by
  induction results generalizing ph with
  | nil => rfl
  | cons r rs ih =>
    by_cases h : r.ArgI = i
    · simp only [List.foldl_cons, List.filter_cons, h, decide_True, if_true]
      exact ih _
    · simp only [List.foldl_cons, List.filter_cons, h, decide_False, Bool.false_eq_true, if_false]
      rw [← ih]
      simp [phaseStep, h]

theorem phaseStep_untouched (i : Nat) (ph : ArgPhase) (r : checkResult) (hr : r.ArgI = i) :
    phaseStep i ph r = .untouched ↔ ph = .untouched ∧ r.Stat ≠ [] := by
  unfold phaseStep
  by_cases hs : r.Stat = [] <;> cases ph <;> simp [hr, hs]

theorem phaseStep_unverified (i : Nat) (ph : ArgPhase) (r : checkResult) (hr : r.ArgI = i) :
    phaseStep i ph r = .unverified ↔ r.Stat = [] ∧ (ph = .untouched ∨ ph = .unverified) := by
  unfold phaseStep
  by_cases hs : r.Stat = [] <;> cases ph <;> simp [hr, hs]

theorem phase_untouched_iff (i : Nat) (rs : List checkResult) (hall : ∀ r ∈ rs, r.ArgI = i) :
    rs.foldl (phaseStep i) .untouched = .untouched ↔ ∀ r ∈ rs, r.Stat ≠ [] := by
  induction rs using List.reverseRecOn with
  | nil => simp
  | append_singleton l r ih =>
    have hr : r.ArgI = i := hall r (by simp)
    have hl : ∀ x ∈ l, x.ArgI = i := fun x hx => hall x (by simp [hx])
    rw [List.foldl_append, List.foldl_cons, List.foldl_nil, phaseStep_untouched i _ r hr, ih hl]
    constructor
    · rintro ⟨h1, h2⟩ x hx
      rcases List.mem_append.1 hx with hx | hx
      · exact h1 x hx
      · simp only [List.mem_singleton] at hx; rw [hx]; exact h2
    · intro h
      exact ⟨fun x hx => h x (by simp [hx]), h r (by simp)⟩

theorem phase_unverified_iff (i : Nat) (rs : List checkResult) (hall : ∀ r ∈ rs, r.ArgI = i) :
    rs.foldl (phaseStep i) .untouched = .unverified ↔
      ∃ pre post, rs = pre ++ post ∧ post ≠ [] ∧ (∀ r ∈ pre, r.Stat ≠ []) ∧
        (∀ r ∈ post, r.Stat = []) := by
  induction rs using List.reverseRecOn with
  | nil =>
    constructor
    · intro h; cases h
    · rintro ⟨pre, post, h, hne, -, -⟩
      have := congrArg List.length h
      simp only [List.length_nil, List.length_append] at this
      exact absurd (List.length_eq_zero.1 (by omega)) hne
  | append_singleton l r ih =>
    have hr : r.ArgI = i := hall r (by simp)
    have hl : ∀ x ∈ l, x.ArgI = i := fun x hx => hall x (by simp [hx])
    rw [List.foldl_append, List.foldl_cons, List.foldl_nil, phaseStep_unverified i _ r hr,
      phase_untouched_iff i l hl, ih hl]
    constructor
    · rintro ⟨hs, h | ⟨pre, post, rfl, hne, hp, hq⟩⟩
      · exact ⟨l, [r], rfl, by simp, h, by simpa using hs⟩
      · refine ⟨pre, post ++ [r], by simp, by simp, hp, ?_⟩
        intro x hx
        rcases List.mem_append.1 hx with hx | hx
        · exact hq x hx
        · simp only [List.mem_singleton] at hx; rw [hx]; exact hs
    · rintro ⟨pre, post, he, hne, hp, hq⟩
      obtain ⟨post', r', rfl⟩ : ∃ post' r', post = post' ++ [r'] :=
        ⟨post.dropLast, post.getLast hne, (List.dropLast_append_getLast hne).symm⟩
      rw [← List.append_assoc] at he
      have h1 := List.append_inj' he rfl
      obtain ⟨hl', hr'⟩ := h1
      have hr'' : r = r' := by simpa using hr'
      subst hr''
      refine ⟨hq r (by simp), ?_⟩
      by_cases hpe : post' = []
      · left
        subst hpe
        rw [hl']
        simpa using hp
      · right
        exact ⟨pre, post', hl', hpe, hp, fun x hx => hq x (by simp [hx])⟩

/-- What the aggregation loop reports: argument `i` ends in the no-file-verified
set iff its results, in arrival order, are checked results (any number, none
included) followed by at least one skipped result: a checked result counts only
when it arrives after a skipped one of the same argument. -/
theorem aggregate_mem_noFileVerified_iff (opt : Options) (results : List checkResult) (i : Nat) :
    i ∈ (aggregate opt results).noFileVerifiedSet ↔
      ∃ pre post, (results.filter fun r => decide (r.ArgI = i)) = pre ++ post ∧ post ≠ [] ∧
        (∀ r ∈ pre, r.Stat ≠ []) ∧ (∀ r ∈ post, r.Stat = []) := by
  rw [aggregate_mem_iff_phase, argPhase, phase_foldl_filter]
  exact phase_unverified_iff i _ (fun r hr => by simpa using (List.mem_filter.1 hr).2)

/-! ## Index safety of the parsers over 64-bit integers -/

theorem wrapInt_of_range (x : Int) (h1 : -9223372036854775808 ≤ x) (h2 : x ≤ maxInt) :
    wrapInt x = x := by
  unfold wrapInt
  unfold maxInt at h2
  omega

theorem machine_parseGnuSum_eq (r : Machine.HashSumReader) (line0 : GoString)
    (h0 : 0 ≤ r.Width) (h1 : 2 * r.Width + 2 ≤ maxInt) :
    r.parseGnuSum line0 = r.unbounded.parseGnuSum line0 := by
  unfold Machine.HashSumReader.parseGnuSum HashSumReader.parseGnuSum Machine.HashSumReader.unbounded
  have hm : maxInt = 9223372036854775807 := rfl
  have e : ((r.Width.toNat : Nat) : Int) = r.Width := Int.toNat_of_nonneg h0
  have w0 : wrapInt (r.Width * 2) = r.Width * 2 := wrapInt_of_range _ (by omega) (by omega)
  simp only [w0, e]
  have w1 : wrapInt (r.Width * 2 + 1) = r.Width * 2 + 1 := wrapInt_of_range _ (by omega) (by omega)
  have w2 : wrapInt (r.Width * 2 + 2) = r.Width * 2 + 2 := wrapInt_of_range _ (by omega) (by omega)
  simp only [w1, w2]

theorem machine_parseBsdSum_eq (r : Machine.HashSumReader) (line0 : GoString)
    (h0 : 0 ≤ r.Width) (h1 : 2 * r.Width + r.Name.length + 6 ≤ maxInt)
    (hl : (line0.length : Int) ≤ maxInt) :
    r.parseBsdSum line0 = r.unbounded.parseBsdSum line0 := by
  unfold Machine.HashSumReader.parseBsdSum HashSumReader.parseBsdSum Machine.HashSumReader.unbounded
  have hm : maxInt = 9223372036854775807 := rfl
  have e : ((r.Width.toNat : Nat) : Int) = r.Width := Int.toNat_of_nonneg h0
  have w0 : wrapInt (r.Width * 2) = r.Width * 2 := wrapInt_of_range _ (by omega) (by omega)
  simp only [w0, e]
  have wk : wrapInt (r.Width * 2 + (r.Name.length : Int)) = r.Width * 2 + r.Name.length :=
    wrapInt_of_range _ (by omega) (by omega)
  have wk6 : wrapInt (r.Width * 2 + (r.Name.length : Int) + 6) = r.Width * 2 + r.Name.length + 6 :=
    wrapInt_of_range _ (by omega) (by omega)
  have wk2 : wrapInt ((r.Name.length : Int) + 2) = r.Name.length + 2 :=
    wrapInt_of_range _ (by omega) (by omega)
  simp only [wk, wk6, wk2]
  have hstrip : (if HasPrefix line0 [chSlash] = true then sliceFrom line0 1 else some line0)
      = some (stripMarker line0) := by
    unfold stripMarker
    by_cases h : HasPrefix line0 [chSlash] = true
    · obtain ⟨t, rfl⟩ := (HasPrefix_slash line0).1 h
      have := sliceFrom_natCast (chSlash :: t) 1 (by simp)
      simp [h] at this ⊢
      exact this
    · simp [h]
  have hsl : ((stripMarker line0).length : Int) ≤ maxInt := by
    have : (stripMarker line0).length ≤ line0.length := by
      unfold stripMarker
      split_ifs
      · simp
      · exact le_refl _
    omega
  rw [hstrip]
  simp only [Option.some_bind]
  have wa : wrapInt (((stripMarker line0).length : Int) - r.Width * 2)
      = (stripMarker line0).length - r.Width * 2 :=
    wrapInt_of_range _ (by omega) (by omega)
  have wb : wrapInt (((stripMarker line0).length : Int) - r.Width * 2 - 4)
      = (stripMarker line0).length - r.Width * 2 - 4 :=
    wrapInt_of_range _ (by omega) (by omega)
  simp only [wa, wb]

/-- C12 (as amended): with 64-bit integers, for every reader with `Width >= 0` and
every line (of a length that fits an `int`, as every Go string has), as long as
`2*Width + 2` (plain format) or
`2*Width + len(Name) + 6` (tagged format) does not exceed the largest `int`: the
parser returns a result, so none of its index and slice expressions is out of
range; and a line that, without its optional leading slash, is shorter than
`2*Width + 2` (plain) or `2*Width + len(Name) + 6` (tagged) gets the bare early
return, `ok = false`. -/
theorem parsers_index_in_range (r : Machine.HashSumReader) (line0 : GoString)
    (h0 : 0 ≤ r.Width) (hl : (line0.length : Int) ≤ maxInt) :
    (2 * r.Width + 2 ≤ maxInt →
      ∃ res, r.parseGnuSum line0 = some res ∧
        (((stripMarker line0).length : Int) < 2 * r.Width + 2 → res = ParseResult.zero)) ∧
    (2 * r.Width + r.Name.length + 6 ≤ maxInt →
      ∃ res, r.parseBsdSum line0 = some res ∧
        (((stripMarker line0).length : Int) < 2 * r.Width + r.Name.length + 6 →
          res = ParseResult.zero)) := by
  have e : ((r.Width.toNat : Nat) : Int) = r.Width := Int.toNat_of_nonneg h0
  constructor
  · intro h1
    rw [machine_parseGnuSum_eq r line0 h0 h1, parseGnuSum_eq]
    refine ⟨_, rfl, ?_⟩
    intro hshort
    have hs : (stripMarker line0).length ≤ 2 * r.Width.toNat + 2 := by omega
    unfold stripMarker at hs
    unfold gnuBody Machine.HashSumReader.unbounded
    rw [if_pos hs]
  · intro h1
    rw [machine_parseBsdSum_eq r line0 h0 h1 hl, parseBsdSum_eq]
    refine ⟨_, rfl, ?_⟩
    intro hshort
    have hs : (stripMarker line0).length ≤ 2 * r.Width.toNat + r.Name.length + 6 := by omega
    unfold stripMarker at hs
    unfold bsdBody Machine.HashSumReader.unbounded
    rw [if_pos hs]

theorem parsers_index_in_range_witness :
    (2 * (32 : Int) + 2 ≤ maxInt →
      ∃ res, (Machine.HashSumReader.mk (ascii "SHA256") 32 false false false).parseGnuSum
          [chSlash] = some res ∧
        (((stripMarker [chSlash]).length : Int) < 2 * 32 + 2 → res = ParseResult.zero)) ∧
    (2 * (32 : Int) + (ascii "SHA256").length + 6 ≤ maxInt →
      ∃ res, (Machine.HashSumReader.mk (ascii "SHA256") 32 false false false).parseBsdSum
          [chSlash] = some res ∧
        (((stripMarker [chSlash]).length : Int) < 2 * 32 + (ascii "SHA256").length + 6 →
          res = ParseResult.zero)) :=
  parsers_index_in_range ⟨ascii "SHA256", 32, false, false, false⟩ [chSlash] (by decide)
    (by decide)

/-- C12 (counterexample): a reader with `Width = 2^62`, which is not negative. The
product `Width * 2` wraps to `-2^63`, the length guard of either parser lets the
empty line through, and the first index or slice expression is out of range: both
parsers panic. With `Width = 2^62 - 1` the sum `hexWidth + 2` wraps and
`parseGnuSum` panics as well. -/
theorem parsers_panic_on_wrapping_width :
    (0 : Int) ≤ 4611686018427387904 ∧
    (Machine.HashSumReader.mk (ascii "SHA256") 4611686018427387904 false false false).parseGnuSum
      [] = none ∧
    (Machine.HashSumReader.mk (ascii "SHA256") 4611686018427387904 true false false).parseBsdSum
      [] = none ∧
    (Machine.HashSumReader.mk (ascii "SHA256") 4611686018427387903 false false false).parseGnuSum
      [] = none := by
  decide


/-! ## Paths -/

theorem takeWhile_append_stop {α : Type} (p : α → Bool) (l : List α) (a : α) (r : List α)
    (hl : ∀ x ∈ l, p x = true) (ha : p a = false) :
    (l ++ a :: r).takeWhile p = l ∧ (l ++ a :: r).dropWhile p = a :: r := by
  induction l with
  | nil => simp [List.takeWhile, List.dropWhile, ha]
  | cons x t ih =>
    have hx := hl x (by simp)
    have ih2 := ih (fun y hy => hl y (by simp [hy]))
    simp [List.takeWhile, List.dropWhile, hx, ih2.1, ih2.2]

theorem Split_append (x c : GoString) (hc : chSlash ∉ c) :
    Split (x ++ chSlash :: c) = (x ++ [chSlash], c) := by
  unfold Split
  have hr : (x ++ chSlash :: c).reverse = c.reverse ++ chSlash :: x.reverse := by simp
  have h := takeWhile_append_stop (fun b => decide (b ≠ chSlash)) c.reverse chSlash x.reverse
    (by
      intro y hy
      have : y ∈ c := List.mem_reverse.1 hy
      simp only [ne_eq, decide_not, Bool.not_eq_true', decide_eq_false_iff_not]
      intro e; rw [e] at this; exact hc this)
    (by simp)
  rw [hr, h.1, h.2]
  simp

theorem splitSlash_ne_nil (s : GoString) : splitSlash s ≠ [] := by
  cases s with
  | nil => simp [splitSlash]
  | cons b rest =>
    unfold splitSlash
    split_ifs
    · simp
    · split <;> simp

theorem splitSlash_noslash (c : GoString) (h : chSlash ∉ c) : splitSlash c = [c] := by
  induction c with
  | nil => rfl
  | cons b t ih =>
    simp only [List.mem_cons, not_or] at h
    have hb : b ≠ chSlash := fun e => h.1 e.symm
    rw [splitSlash, if_neg hb, ih h.2]

theorem splitSlash_append (c rest : GoString) (h : chSlash ∉ c) :
    splitSlash (c ++ chSlash :: rest) = c :: splitSlash rest := by
  induction c with
  | nil => simp [splitSlash]
  | cons b t ih =>
    simp only [List.mem_cons, not_or] at h
    have hb : b ≠ chSlash := fun e => h.1 e.symm
    rw [List.cons_append, splitSlash, if_neg hb, ih h.2]

theorem splitSlash_mem_noslash (s : GoString) : ∀ e ∈ splitSlash s, chSlash ∉ e := by
  induction s with
  | nil => simp [splitSlash]
  | cons b rest ih =>
    unfold splitSlash
    split_ifs with hb
    · intro e he
      simp only [List.mem_cons] at he
      rcases he with rfl | he
      · simp
      · exact ih e he
    · cases hs : splitSlash rest with
      | nil => exact absurd hs (splitSlash_ne_nil rest)
      | cons c cs =>
        intro e he
        simp only [List.mem_cons] at he
        rw [hs] at ih
        rcases he with rfl | he
        · simp only [List.mem_cons, not_or]
          exact ⟨fun e' => hb e'.symm, ih c (by simp)⟩
        · exact ih e (by simp [he])

theorem joinSlash_cons_cons (a b : GoString) (t : List GoString) :
    joinSlash (a :: b :: t) = a ++ chSlash :: joinSlash (b :: t) := rfl

theorem splitSlash_joinSlash (cs : List GoString) (hne : cs ≠ [])
    (h : ∀ e ∈ cs, chSlash ∉ e) : splitSlash (joinSlash cs) = cs := by
  induction cs with
  | nil => exact absurd rfl hne
  | cons c t ih =>
    cases t with
    | nil => simpa [joinSlash] using splitSlash_noslash c (h c (by simp))
    | cons c2 t2 =>
      rw [joinSlash_cons_cons, splitSlash_append c _ (h c (by simp)),
        ih (by simp) (fun e he => h e (by simp [he]))]

theorem splitSlash_joinSlash_slash (cs : List GoString) (hne : cs ≠ [])
    (h : ∀ e ∈ cs, chSlash ∉ e) : splitSlash (joinSlash cs ++ [chSlash]) = cs ++ [[]] := by
  induction cs with
  | nil => exact absurd rfl hne
  | cons c t ih =>
    cases t with
    | nil =>
      rw [joinSlash, splitSlash_append c [] (h c (by simp))]
      rfl
    | cons c2 t2 =>
      rw [joinSlash_cons_cons, List.append_assoc, List.cons_append,
        splitSlash_append c _ (h c (by simp)),
        ih (by simp) (fun e he => h e (by simp [he]))]
      rfl

theorem joinSlash_snoc (cs : List GoString) (c : GoString) (hne : cs ≠ []) :
    joinSlash (cs ++ [c]) = joinSlash cs ++ chSlash :: c := by
  induction cs with
  | nil => exact absurd rfl hne
  | cons a t ih =>
    cases t with
    | nil => simp [joinSlash]
    | cons a2 t2 =>
      have := ih (by simp)
      rw [List.cons_append, List.cons_append, joinSlash_cons_cons, joinSlash_cons_cons,
        ← List.cons_append, this, List.append_assoc]
      rfl


theorem cleanStep_valid (out : List GoString) (e : GoString) (h : validElem e) :
    cleanStep true out e = out ++ [e] := by
  obtain ⟨h1, h2, h3, _⟩ := h
  simp [cleanStep, h1, h2, h3]

theorem foldl_cleanStep_valid (cs out : List GoString) (h : ∀ e ∈ cs, validElem e) :
    cs.foldl (cleanStep true) out = out ++ cs := by
  induction cs generalizing out with
  | nil => simp
  | cons c t ih =>
    rw [List.foldl_cons, cleanStep_valid out c (h c (by simp)),
      ih _ (fun e he => h e (by simp [he]))]
    simp

theorem cleanStep_keeps_valid (out : List GoString) (e : GoString)
    (he : chSlash ∉ e) (hout : ∀ x ∈ out, validElem x) :
    ∀ x ∈ cleanStep true out e, validElem x := by
  unfold cleanStep
  simp only [if_true]
  split_ifs with h1 h2 h3
  · exact hout
  · exact hout
  · intro x hx
    exact hout x (List.mem_of_mem_dropLast hx)
  · intro x hx
    rcases List.mem_append.1 hx with hx | hx
    · exact hout x hx
    · simp only [List.mem_singleton] at hx
      subst hx
      exact ⟨h1, h2, h3, he⟩

theorem foldl_cleanStep_keeps_valid (elems out : List GoString)
    (he : ∀ e ∈ elems, chSlash ∉ e) (hout : ∀ x ∈ out, validElem x) :
    ∀ x ∈ elems.foldl (cleanStep true) out, validElem x := by
  induction elems generalizing out with
  | nil => exact hout
  | cons e t ih =>
    rw [List.foldl_cons]
    exact ih _ (fun e' he' => he e' (by simp [he']))
      (cleanStep_keeps_valid out e (he e (by simp)) hout)

/-- The clean form of an absolute path is a slash followed by valid elements joined
with slashes. -/
theorem Clean_of_abs (path : GoString) (h : IsAbs path = true) :
    ∃ cs, (∀ e ∈ cs, validElem e) ∧ Clean path = rootedPath cs := by
  obtain ⟨t, rfl⟩ := (HasPrefix_slash path).1 h
  refine ⟨(splitSlash (chSlash :: t)).foldl (cleanStep true) [], ?_, ?_⟩
  · exact foldl_cleanStep_keeps_valid _ [] (splitSlash_mem_noslash _) (by simp)
  · simp [Clean, rootedPath]

theorem Clean_rootedPath_slash (cs : List GoString) (h : ∀ e ∈ cs, validElem e) :
    Clean (if cs = [] then [chSlash] else rootedPath cs ++ [chSlash]) = rootedPath cs := by
  by_cases hc : cs = []
  · subst hc
    decide
  · rw [if_neg hc]
    have hs : ∀ e ∈ cs, chSlash ∉ e := fun e he => (h e he).2.2.2
    have e1 : splitSlash (rootedPath cs ++ [chSlash]) = [] :: (cs ++ [[]]) := by
      unfold rootedPath
      rw [List.cons_append, splitSlash, if_pos rfl, splitSlash_joinSlash_slash cs hc hs]
    unfold Clean
    rw [if_neg (by simp [rootedPath]), if_pos (by simp [rootedPath]), e1]
    simp only [List.foldl_cons, List.foldl_append, List.foldl_nil]
    have c0 : cleanStep true [] [] = [] := by simp [cleanStep]
    rw [c0, foldl_cleanStep_valid cs [] h]
    simp [cleanStep, rootedPath]

theorem Split_rootedPath_snoc (cs : List GoString) (c : GoString) (hc : chSlash ∉ c) :
    Split (rootedPath (cs ++ [c])) =
      ((if cs = [] then [chSlash] else rootedPath cs ++ [chSlash]), c) := by
  by_cases h : cs = []
  · subst h
    simpa [rootedPath, joinSlash] using Split_append [] c hc
  · rw [if_neg h]
    unfold rootedPath
    rw [joinSlash_snoc cs c h]
    have := Split_append (chSlash :: joinSlash cs) c hc
    simpa using this

theorem splitSlash_rootedPath (cs : List GoString) (h : ∀ e ∈ cs, validElem e) :
    (splitSlash (rootedPath cs)).filter (fun e => decide (e ≠ [])) = cs := by
  by_cases hc : cs = []
  · subst hc
    decide
  · have hs : ∀ e ∈ cs, chSlash ∉ e := fun e he => (h e he).2.2.2
    unfold rootedPath
    rw [splitSlash, if_pos rfl, splitSlash_joinSlash cs hc hs]
    simp only [List.filter_cons, ne_eq, not_true_eq_false, decide_False, Bool.false_eq_true,
      if_false]
    rw [List.filter_eq_self]
    intro e he
    simpa using (h e he).1

theorem pathPrefixes_rootedPath (cs : List GoString) (h : ∀ e ∈ cs, validElem e) :
    pathPrefixes (rootedPath cs) = (chainRev cs.reverse).map rootedPath := by
  unfold pathPrefixes
  rw [splitSlash_rootedPath cs h]


/-! ## Symlink loops -/

theorem Split_root : Split [chSlash] = ([chSlash], []) := by decide

/-- The loop of `isLooping` on a clean absolute path whose prefixes all resolve:
with enough iterations allowed it ends without error, it has resolved an initial
part of the chain of prefixes, and it reports a loop iff two prefixes share their
canonical form or one has a canonical form that was visited before. -/
theorem isLoopingLoop_chain (eval : GoString → Except IOError GoString) (rs : List GoString)
    (hvalid : ∀ e ∈ rs, validElem e) (fuel : Nat) (hfuel : rs.length + 1 ≤ fuel)
    (V : Finset GoString) (acc : List GoString)
    (hok : ∀ q ∈ (chainRev rs).map rootedPath, ∃ real, eval q = .ok real) :
    ∃ res, isLoopingLoop eval fuel (rootedPath rs.reverse) V acc = some res ∧ res.err = none ∧
      (∃ k, res.resolved = acc ++ ((chainRev rs).map rootedPath).take k) ∧
      (res.looping = true ↔
        ¬ ((((chainRev rs).map rootedPath).map eval).Nodup ∧
          ∀ q ∈ (chainRev rs).map rootedPath, ∀ real, eval q = .ok real → real ∉ V)) := by
  induction rs generalizing fuel V acc with
  | nil =>
    obtain ⟨f, rfl⟩ : ∃ f, fuel = f + 1 := ⟨fuel - 1, by simp at hfuel; omega⟩
    obtain ⟨real, hreal⟩ := hok (rootedPath []) (by simp [chainRev])
    have hp : rootedPath ([] : List GoString).reverse = [chSlash] := rfl
    have hp2 : rootedPath ([] : List GoString) = [chSlash] := rfl
    rw [hp2] at hreal
    rw [hp, isLoopingLoop, hreal]
    simp only [chainRev, List.map_cons, List.map_nil, hp2, List.nodup_singleton, true_and,
      List.mem_singleton, forall_eq, hreal, Except.ok.injEq]
    by_cases hv : real ∈ V
    · rw [if_pos hv]
      refine ⟨_, rfl, rfl, ⟨1, by simp⟩, ?_⟩
      simp only [true_iff, not_forall]
      exact ⟨real, rfl, fun h => h hv⟩
    · rw [if_neg hv, Split_root, if_pos rfl]
      refine ⟨_, rfl, rfl, ⟨1, by simp⟩, ?_⟩
      simp only [Bool.false_eq_true, false_iff, not_not]
      intro r hr
      rw [← hr]; exact hv
  | cons c rest ih =>
    obtain ⟨f, rfl⟩ : ∃ f, fuel = f + 1 := ⟨fuel - 1, by simp at hfuel; omega⟩
    have hvrest : ∀ e ∈ rest, validElem e := fun e he => hvalid e (by simp [he])
    have hvrev : ∀ e ∈ rest.reverse, validElem e := fun e he => hvrest e (List.mem_reverse.1 he)
    have hc := hvalid c (by simp)
    have hpath : rootedPath (c :: rest).reverse = rootedPath (rest.reverse ++ [c]) := by simp
    have hchain : (chainRev (c :: rest)).map rootedPath
        = rootedPath (c :: rest).reverse :: (chainRev rest).map rootedPath := rfl
    obtain ⟨real, hreal⟩ := hok (rootedPath (c :: rest).reverse) (by rw [hchain]; simp)
    have hokrest : ∀ q ∈ (chainRev rest).map rootedPath, ∃ real, eval q = .ok real :=
      fun q hq => hok q (by rw [hchain]; simp [hq])
    rw [isLoopingLoop, hreal]
    dsimp only
    by_cases hv : real ∈ V
    · rw [if_pos hv]
      refine ⟨_, rfl, rfl, ⟨1, by rw [hchain]; simp⟩, ?_⟩
      simp only [true_iff, not_and, not_forall]
      intro _
      exact ⟨rootedPath (c :: rest).reverse, by rw [hchain]; simp, real, hreal, fun h => h hv⟩
    · rw [if_neg hv]
      have hsplit := Split_rootedPath_snoc rest.reverse c hc.2.2.2
      rw [hpath, hsplit]
      simp only
      rw [if_neg hc.1, Clean_rootedPath_slash rest.reverse hvrev]
      obtain ⟨res, hres, herr, ⟨k, hk⟩, hloop⟩ :=
        ih hvrest f (by simp at hfuel ⊢; omega) (insert real V)
          (acc ++ [rootedPath (rest.reverse ++ [c])]) hokrest
      refine ⟨res, hres, herr, ⟨k + 1, ?_⟩, ?_⟩
      · rw [hk, hchain, hpath]
        simp
      · rw [hloop, hchain]
        simp only [List.map_cons, List.nodup_cons, hreal, List.mem_cons, forall_eq_or_imp,
          Except.ok.injEq, Finset.mem_insert, not_or]
        constructor
        · intro h hcontra
          apply h
          obtain ⟨⟨hnotin, hnd⟩, hhead, htail⟩ := hcontra
          refine ⟨hnd, ?_⟩
          intro q hq r hr
          refine ⟨?_, htail q hq r hr⟩
          intro e
          apply hnotin
          rw [List.mem_map]
          exact ⟨q, hq, by rw [hr, e]⟩
        · intro h hcontra
          apply h
          obtain ⟨hnd, hall⟩ := hcontra
          refine ⟨⟨?_, hnd⟩, ?_, ?_⟩
          · intro hmem
            obtain ⟨q, hq, he⟩ := List.mem_map.1 hmem
            exact (hall q hq real he).1 rfl
          · intro r hr
            rw [← hr]; exact hv
          · intro q hq r hr
            exact (hall q hq r hr).2


theorem chainRev_length (rs : List GoString) : (chainRev rs).length = rs.length + 1 := by
  induction rs with
  | nil => rfl
  | cons c t ih => simp [chainRev, ih]

theorem chainRev_head (rs : List GoString) : (chainRev rs).head? = some rs.reverse := by
  cases rs <;> rfl

theorem seqEvents_cons_some {α : Type} (f : α → Option (List WalkEvent)) (a : α)
    (rest : List α) (x y : List WalkEvent) (ha : f a = some x)
    (hrest : seqEvents f rest = some y) : seqEvents f (a :: rest) = some (x ++ y) := by
  simp [seqEvents, ha, hrest]

theorem seqEvents_append_some {α : Type} (f : α → Option (List WalkEvent)) (l1 l2 : List α)
    (x y : List WalkEvent) (h1 : seqEvents f l1 = some x) (h2 : seqEvents f l2 = some y) :
    seqEvents f (l1 ++ l2) = some (x ++ y) := by
  induction l1 generalizing x with
  | nil =>
    simp only [seqEvents, Option.some.injEq] at h1
    subst h1
    simpa using h2
  | cons a t ih =>
    rw [seqEvents] at h1
    cases hfa : f a with
    | none => rw [hfa] at h1; simp at h1
    | some xa =>
      rw [hfa] at h1
      cases ht : seqEvents f t with
      | none => rw [ht] at h1; simp at h1
      | some xt =>
        rw [ht] at h1
        simp only [Option.some_bind, Option.map_some', Option.some.injEq] at h1
        subst h1
        rw [List.cons_append, seqEvents_cons_some f a (t ++ l2) xa (xt ++ y) hfa (ih xt ht)]
        simp

/-- C11: `isLooping` on an absolute path all of whose prefixes resolve; the
prefixes are those of the path as `filepath.Abs` returns it, the cleaned path.
Given as many iterations as the path has prefixes (the path itself, each ancestor
and the root), the loop ends without error; the paths it has resolved are an initial part
of that chain of prefixes, so each prefix is resolved at most once; it reports a
loop iff two prefixes share their canonical form, in particular whenever the
canonical form of the path is that of one of its proper ancestors. For such an
entry the body of the loop of `findRegularFilesInDir` calls the walk function
once, with the "symlink loop detected" error for the path, and neither calls the
stat function nor descends; and `findRegularFilesInDir` on a directory that lists
the entry returns the opening of the directory, the events of the entries listed
before it, that one call of the walk function, the events of the entries listed
after it, and the final read error if there is one: nothing else comes from the
entry, no stat call and no opening of it. -/
theorem isLooping_detects_ancestor_loop (fs : FileSystem)
    (statFn : GoString → Except IOError FileMode) (path : GoString) (fuel : Nat)
    (habs : IsAbs path = true)
    (hfuel : (pathPrefixes (Clean path)).length ≤ fuel)
    (hok : ∀ q ∈ pathPrefixes (Clean path), ∃ real, fs.evalSymlinks q = .ok real) :
    ∃ res, isLooping fs fuel path = some res ∧ res.err = none ∧
      res.resolved <+: pathPrefixes (Clean path) ∧
      res.resolved.length ≤ (pathPrefixes (Clean path)).length ∧
      (pathPrefixes (Clean path)).head? = some (Clean path) ∧
      (res.looping = true ↔ ¬ ((pathPrefixes (Clean path)).map fs.evalSymlinks).Nodup) ∧
      ((∃ anc ∈ (pathPrefixes (Clean path)).tail,
          fs.evalSymlinks anc = fs.evalSymlinks (Clean path)) →
        res.looping = true ∧
        (∀ (root name : GoString) (descend : GoString → Option (List WalkEvent)),
          Join [root, name] = path →
          walkName fs statFn fuel descend root name =
            some [.walkFn path (some (.symlinkLoop path))]) ∧
        (∀ (root name : GoString) (depth : Nat) (ds : DirStream)
            (bs1 bs2 : List (List GoString)) (ns1 ns2 : List GoString)
            (e1 e2 e3 e4 : List WalkEvent),
          Join [root, name] = path →
          fs.openDir root = .ok ds →
          ds.batches = bs1 ++ (ns1 ++ name :: ns2) :: bs2 →
          seqEvents
            (seqEvents (walkName fs statFn fuel (findRegularFilesInDir fs statFn fuel depth) root))
            bs1 = some e1 →
          seqEvents (walkName fs statFn fuel (findRegularFilesInDir fs statFn fuel depth) root)
            ns1 = some e2 →
          seqEvents (walkName fs statFn fuel (findRegularFilesInDir fs statFn fuel depth) root)
            ns2 = some e3 →
          seqEvents
            (seqEvents (walkName fs statFn fuel (findRegularFilesInDir fs statFn fuel depth) root))
            bs2 = some e4 →
          findRegularFilesInDir fs statFn fuel (depth + 1) root =
            some (.openDir root ::
              (e1 ++ (e2 ++ .walkFn path (some (.symlinkLoop path)) :: e3) ++ e4) ++
              (match ds.readErr with
               | some e => [.walkFn root (some (.io e))]
               | none => [])))) := by
  obtain ⟨cs, hvalid, hclean⟩ := Clean_of_abs path habs
  have hpre : pathPrefixes (Clean path) = (chainRev cs.reverse).map rootedPath := by
    rw [hclean, pathPrefixes_rootedPath cs hvalid]
  rw [hpre] at hfuel hok ⊢
  have hvrev : ∀ e ∈ cs.reverse, validElem e := fun e he => hvalid e (List.mem_reverse.1 he)
  have hlen : cs.reverse.length + 1 ≤ fuel := by
    rw [List.length_map, chainRev_length] at hfuel
    exact hfuel
  obtain ⟨res, hres, herr, ⟨k, hk⟩, hloop⟩ :=
    isLoopingLoop_chain fs.evalSymlinks cs.reverse hvrev fuel hlen ∅ [] hok
  rw [List.reverse_reverse] at hres
  have hrun : isLooping fs fuel path = some res := by
    unfold isLooping Abs
    rw [if_pos habs]
    dsimp only
    rw [hclean]
    exact hres
  have hhead : ((chainRev cs.reverse).map rootedPath).head? = some (Clean path) := by
    rw [List.head?_map, chainRev_head, List.reverse_reverse, hclean]
    rfl
  have hiff : res.looping = true ↔
      ¬ (((chainRev cs.reverse).map rootedPath).map fs.evalSymlinks).Nodup := by
    rw [hloop]
    simp
  refine ⟨res, hrun, herr, ?_, ?_, hhead, hiff, ?_⟩
  · rw [hk, List.nil_append]
    exact List.take_prefix _ _
  · rw [hk, List.nil_append, List.length_take]
    exact Nat.min_le_right _ _
  · rintro ⟨anc, hanc, heq⟩
    have hl : res.looping = true := by
      rw [hiff]
      cases hch : (chainRev cs.reverse).map rootedPath with
      | nil => rw [hch] at hanc; simp at hanc
      | cons h t =>
        rw [hch] at hanc hhead
        simp only [List.head?_cons, Option.some.injEq] at hhead
        simp only [List.tail_cons] at hanc
        rw [List.map_cons, List.nodup_cons]
        intro hnd
        apply hnd.1
        rw [hhead, ← heq]
        exact List.mem_map_of_mem _ hanc
    have hwalk : ∀ (root name : GoString) (descend : GoString → Option (List WalkEvent)),
        Join [root, name] = path →
        walkName fs statFn fuel descend root name =
          some [.walkFn path (some (.symlinkLoop path))] := by
      intro root name descend hj
      unfold walkName
      simp only [hj, hrun, herr, hl, if_true]
    refine ⟨hl, hwalk, ?_⟩
    intro root name depth ds bs1 bs2 ns1 ns2 e1 e2 e3 e4 hj hopen hb h1 h2 h3 h4
    have hname := hwalk root name (findRegularFilesInDir fs statFn fuel depth) hj
    have hbatch := seqEvents_append_some _ ns1 (name :: ns2) e2 _ h2
      (seqEvents_cons_some _ name ns2 _ e3 hname h3)
    have hall := seqEvents_append_some _ bs1 ((ns1 ++ name :: ns2) :: bs2) e1 _ h1
      (seqEvents_cons_some _ (ns1 ++ name :: ns2) bs2 _ e4 hbatch h4)
    rw [findRegularFilesInDir, hopen]
    dsimp only
    rw [hb, hall]
    simp

theorem isLooping_detects_ancestor_loop_witness :
    ∃ res, isLooping loopFs 4 (ascii "/a/b/l") = some res ∧ res.err = none ∧
      res.looping = true ∧
      res.resolved <+: pathPrefixes (Clean (ascii "/a/b/l")) ∧
      findRegularFilesInDir loopFs loopStat 4 1 (ascii "/a/b") =
        some [.openDir (ascii "/a/b"),
          .walkFn (ascii "/a/b/l") (some (.symlinkLoop (ascii "/a/b/l"))),
          .statFn (ascii "/a/b/f"),
          .walkFn (ascii "/a/b/f") none] := by
  obtain ⟨res, hrun, herr, hpre, _, _, _, himp⟩ :=
    isLooping_detects_ancestor_loop loopFs loopStat (ascii "/a/b/l") 4 (by decide) (by decide)
      (by
        intro q _
        unfold loopFs
        simp only
        split_ifs
        · exact ⟨_, rfl⟩
        · exact ⟨_, rfl⟩)
  obtain ⟨hl, _, hdir⟩ := himp ⟨ascii "/a", by decide, rfl⟩
  refine ⟨res, hrun, herr, hl, hpre, ?_⟩
  have h := hdir (ascii "/a/b") (ascii "l") 0 ⟨[[ascii "l", ascii "f"]], none⟩ [] [] []
    [ascii "f"] [] [] [.statFn (ascii "/a/b/f"), .walkFn (ascii "/a/b/f") none] []
    (by decide) rfl rfl rfl rfl (by decide) rfl
  simpa using h

/-- The walker on the example directory `/a/b`: the entry `l`, a symlink to the
ancestor `/a`, is resolved three times by `isLooping` (itself, `/a/b`, `/a`) and
reported once with the "symlink loop detected" error, without a stat call and
without being opened; the regular file `f` is reported after its stat call. -/
theorem findRegularFilesInDir_symlink_to_ancestor :
    (ascii "/a") ∈ (pathPrefixes (Clean (ascii "/a/b/l"))).tail ∧
    loopFs.evalSymlinks (ascii "/a") = loopFs.evalSymlinks (Clean (ascii "/a/b/l")) ∧
    isLooping loopFs 4 (ascii "/a/b/l") =
      some ⟨true, none, [ascii "/a/b/l", ascii "/a/b", ascii "/a"]⟩ ∧
    isLooping loopFs 4 (ascii "/a/b/f") =
      some ⟨false, none, [ascii "/a/b/f", ascii "/a/b", ascii "/a", ascii "/"]⟩ ∧
    findRegularFilesInDir loopFs loopStat 4 1 (ascii "/a/b") =
      some [.openDir (ascii "/a/b"),
        .walkFn (ascii "/a/b/l") (some (.symlinkLoop (ascii "/a/b/l"))),
        .statFn (ascii "/a/b/f"),
        .walkFn (ascii "/a/b/f") none] := by
  refine ⟨by decide, rfl, by decide, by decide, by decide⟩


end Sha256s
